import Mathlib

/-!
# Verification of the suono FLAC decoder

A shallow embedding, in Lean 4, of the decoder implemented in `src/bits.rs`,
`src/decode.rs`, `src/frame.rs`, `src/metadata.rs`, `src/stream.rs`,
`src/bitvec.rs` and `src/error.rs`, together with proofs about the embedded
functions.

Machine integers are modelled by `Nat`/`Int` with explicit reductions
modulo `2 ^ w` at the points where Rust wraps, masks or casts.  Fallible
operations return an explicit result value.  Rust code that can `assert!`
or otherwise abort the process is modelled by a distinguished `aborted`
result, distinct from an `Err` return.
-/

namespace Suono

/-- Reinterpret an integer as a signed two's-complement 32-bit value: the
semantics of Rust's `as i32` cast and of wrapping `i32` arithmetic. -/
def toI32 (x : Int) : Int := (x + 2 ^ 31) % 2 ^ 32 - 2 ^ 31

/-- Reinterpret a 64-bit pattern (a `u64` value) as a signed two's-complement
`i64`: the semantics of Rust's `as i64` cast. -/
def u64AsI64 (v : Nat) : Int := if v < 2 ^ 63 then (v : Int) else (v : Int) - 2 ^ 64

/-- Arithmetic (sign-propagating) right shift on `i64`/`i32` values, which on
two's-complement machines is division by `2 ^ m` rounded toward negative
infinity: the semantics of Rust's `>>` on signed integers. -/
def asr (x : Int) (m : Nat) : Int := Int.fdiv x (2 ^ m)

/-- `error.rs`: `ErrorCode`.  The `Io(io::Error)` variant is specialised to
the only I/O failure the byte-source model produces: an unexpected end of
stream (`io::ErrorKind::UnexpectedEof`, raised by `read_exact` underflow). -/
inductive ErrorCode where
  | ioEof
  | wrongMagic
  | invalidMetadataType
  | frameOutOfSync
  | frameHeaderCrcMismatch
  | frameSampleSizeUnknown
  | frameBlockSizeUnknown
  | frameChannelAssignmentUnknown
  | frameCrcMismatch
  | subframeReservedType
  | subframeOutOfSync
  | residualCodingMethodUnknown
  | fixedLPCCoefficientUnknown
  | qlpPrecisionInvalid
  | lpcSignalRestoreFailure
  | frameBufferUnallocated
  deriving DecidableEq, Repr

/-- The combined state of the layered reader.  The Rust code stacks
`BitReader` (`bits.rs`) on `DecodingReadProxy` (`decode.rs`) on the byte
source; the embedding flattens the stack into one record: the pending bytes
of the underlying source, the sub-byte bit queue of `BitReader`, and the two
CRC accumulators of the proxy with their region flags. -/
structure DecodeState where
  source : List Nat
  queue : Nat
  queueCount : Nat
  crc8 : Nat
  crc16 : Nat
  computingCrc8 : Bool
  computingCrc16 : Bool
  deriving DecidableEq, Repr

/-- Result of running one decoding step: a value with the successor state, an
`error.rs` error, or a process abort (Rust `assert!`/`panic`). -/
inductive DRes (α : Type) where
  | ok : α → DecodeState → DRes α
  | err : ErrorCode → DRes α
  | aborted : DRes α
  deriving Repr, DecidableEq

/-- The decoding monad: explicit state passing of `DecodeState`. -/
def DecM (α : Type) : Type := DecodeState → DRes α

def DecM.pure {α : Type} (a : α) : DecM α := fun st => .ok a st

def DecM.bind {α β : Type} (x : DecM α) (f : α → DecM β) : DecM β := fun st =>
  match x st with
  | .ok a st' => f a st'
  | .err e => .err e
  | .aborted => .aborted

instance : Monad DecM where
  pure := DecM.pure
  bind := DecM.bind

/-- Early return of an `error.rs` error (Rust `return Err(...)`). -/
def DecM.fail {α : Type} (e : ErrorCode) : DecM α := fun _ => .err e

/-- A failed Rust `assert!` (or another panic): the process aborts. -/
def DecM.abort {α : Type} : DecM α := fun _ => .aborted

theorem DecM.run_bind {α β : Type} (x : DecM α) (f : α → DecM β) (st : DecodeState) :
    (x >>= f) st =
      match x st with
      | .ok a st' => f a st'
      | .err e => .err e
      | .aborted => .aborted := rfl

theorem DecM.run_pure {α : Type} (a : α) (st : DecodeState) :
    (Pure.pure a : DecM α) st = .ok a st := rfl

theorem DecM.bind_ok {α β : Type} {x : DecM α} {f : α → DecM β} {st : DecodeState}
    {b : β} {st' : DecodeState} (h : (x >>= f) st = .ok b st') :
    ∃ a st₁, x st = .ok a st₁ ∧ f a st₁ = .ok b st' := by
  rw [DecM.run_bind] at h
  rcases hx : x st with ⟨a, st₁⟩ | e | _ <;> rw [hx] at h
  · exact ⟨a, st₁, rfl, h⟩
  · cases h
  · cases h

theorem DecM.bind_ok_intro {α β : Type} {x : DecM α} {f : α → DecM β} {st st1 st2 : DecodeState}
    {a : α} {b : β} (h1 : x st = .ok a st1) (h2 : f a st1 = .ok b st2) :
    (x >>= f) st = .ok b st2 := by
  rw [DecM.run_bind, h1]
  exact h2

/-! ## CRC accumulators

`main.rs` declares `mod crc;`, but `crc.rs` is not among the provided
sources; only its interface (`Hasher`, `HasherCrc8`, `HasherCrc16Buypass`
used by `decode.rs`) is visible.  The hashers are therefore modelled from
the spec, §4.1: CRC-8 with polynomial `0x07`, init 0, no reflection, and
CRC-16/BUYPASS with polynomial `0x8005`, init 0, no reflection, each byte
folded in MSB-first; `reset()` restores the init value and `state()`
returns the accumulator. -/

/-- Modelled from the spec (§4.1): one MSB-first step of the CRC-8 shift
register with polynomial `0x07`. -/
def crc8Step (x : Nat) : Nat :=
  if x &&& 0x80 ≠ 0 then ((x <<< 1) ^^^ 0x07) &&& 0xff else (x <<< 1) &&& 0xff

/-- Modelled from the spec (§4.1): fold one byte into the CRC-8 accumulator. -/
def crc8Byte (c b : Nat) : Nat :=
  crc8Step (crc8Step (crc8Step (crc8Step (crc8Step (crc8Step (crc8Step (crc8Step (c ^^^ b))))))))

/-- Modelled from the spec (§4.1): fold a byte sequence into the CRC-8
accumulator (the missing `crc.rs` hasher's `hash`). -/
def crc8Run (c : Nat) (bs : List Nat) : Nat := bs.foldl crc8Byte c

/-- Modelled from the spec (§4.1): one MSB-first step of the CRC-16/BUYPASS
shift register with polynomial `0x8005`. -/
def crc16Step (x : Nat) : Nat :=
  if x &&& 0x8000 ≠ 0 then ((x <<< 1) ^^^ 0x8005) &&& 0xffff else (x <<< 1) &&& 0xffff

/-- Modelled from the spec (§4.1): fold one byte into the CRC-16/BUYPASS
accumulator. -/
def crc16Byte (c b : Nat) : Nat :=
  crc16Step (crc16Step (crc16Step (crc16Step (crc16Step (crc16Step (crc16Step (crc16Step (c ^^^ (b <<< 8)))))))))

/-- Modelled from the spec (§4.1): fold a byte sequence into the
CRC-16/BUYPASS accumulator. -/
def crc16Run (c : Nat) (bs : List Nat) : Nat := bs.foldl crc16Byte c

theorem crc8Run_append (c : Nat) (xs ys : List Nat) :
    crc8Run c (xs ++ ys) = crc8Run (crc8Run c xs) ys := by
  simp [crc8Run, List.foldl_append]

theorem crc16Run_append (c : Nat) (xs ys : List Nat) :
    crc16Run c (xs ++ ys) = crc16Run (crc16Run c xs) ys := by
  simp [crc16Run, List.foldl_append]

/-! ## The byte-source proxy (`decode.rs`) -/

/-- `decode.rs` `DecodingReadProxy::read_exact`: deliver exactly `k` bytes
from the underlying source, folding them into each CRC accumulator whose
region is open.  On underflow the model consumes nothing and reports
`UnexpectedEof` (the decoder never resumes a reader that failed). -/
def readExact (k : Nat) : DecM (List Nat) := fun st =>
  if k ≤ st.source.length then
    let bytes := st.source.take k
    .ok bytes { st with
      source := st.source.drop k
      crc8 := if st.computingCrc8 then crc8Run st.crc8 bytes else st.crc8
      crc16 := if st.computingCrc16 then crc16Run st.crc16 bytes else st.crc16 }
  else .err .ioEof

/-- `decode.rs` `DecodingRead for DecodingReadProxy`: `compute_crc8_begin`. -/
def computeCrc8Begin : DecM Unit := fun st =>
  .ok () { st with computingCrc8 := true, crc8 := 0 }

/-- `decode.rs`: `compute_crc8_end` freezes and returns the CRC-8 state. -/
def computeCrc8End : DecM Nat := fun st =>
  .ok st.crc8 { st with computingCrc8 := false }

/-- `decode.rs`: `compute_crc16_begin`. -/
def computeCrc16Begin : DecM Unit := fun st =>
  .ok () { st with computingCrc16 := true, crc16 := 0 }

/-- `decode.rs`: `compute_crc16_end` freezes and returns the CRC-16 state. -/
def computeCrc16End : DecM Nat := fun st =>
  .ok st.crc16 { st with computingCrc16 := false }

/-! ## The bit reader (`bits.rs`) -/

/-- `bits.rs` `BitReader::read_value`: serve `n ≤ 64` bits MSB-first, from
the queue alone if it suffices, otherwise fetching
`n_bytes = ceil((n - queue_count)/8)` source bytes into the low end of a
zero-initialised big-endian 8-byte buffer.  `checked_shl(..).unwrap_or(0)`
yields 0 whenever the shift distance reaches 64. -/
def readValue (n : Nat) : DecM Nat := fun st =>
  if n ≤ 64 then
    if st.queueCount < n then
      let nBits := n - st.queueCount
      let nBytes := (nBits - 1) / 8 + 1
      match readExact nBytes st with
      | .ok bytes st' =>
          let loaded := bytes.foldl (fun a b => a * 256 + b) 0
          let dequeued := if nBits < 64 then (st.queue <<< nBits) % 2 ^ 64 else 0
          let remaining := (8 - (nBits &&& 7)) &&& 7
          let result := dequeued ||| (loaded >>> remaining)
          .ok result { st' with queue := loaded &&& ((1 <<< remaining) - 1), queueCount := remaining }
      | .err e => .err e
      | .aborted => .aborted
    else
      let remaining := st.queueCount - n
      let queue := st.queue
      .ok (queue >>> remaining)
        { st with queue := queue &&& ((1 <<< remaining) - 1), queueCount := remaining }
  else .aborted

/-- `bits.rs`: `read_bool`. -/
def readBool : DecM Bool := do
  let value ← readValue 1
  pure ((value &&& 1) == 1)

/-- `bits.rs`: `read_u8_bits` (`assert!(n <= 8)`). -/
def readU8Bits (n : Nat) : DecM Nat := fun st =>
  if n ≤ 8 then (do let v ← readValue n; pure (v &&& 0xff)) st else .aborted

/-- `bits.rs`: `read_u8`. -/
def readU8 : DecM Nat := do
  let v ← readValue 8
  pure (v &&& 0xff)

/-- `bits.rs`: `read_u16_bits` (`assert!(n <= 16)`). -/
def readU16Bits (n : Nat) : DecM Nat := fun st =>
  if n ≤ 16 then (do let v ← readValue n; pure (v &&& 0xffff)) st else .aborted

/-- `bits.rs`: `read_u16`. -/
def readU16 : DecM Nat := do
  let v ← readValue 16
  pure (v &&& 0xffff)

/-- `bits.rs`: `read_u32_bits` (`assert!(n <= 32)`). -/
def readU32Bits (n : Nat) : DecM Nat := fun st =>
  if n ≤ 32 then (do let v ← readValue n; pure (v &&& 0xffffffff)) st else .aborted

/-- `bits.rs`: `read_u32`. -/
def readU32 : DecM Nat := do
  let v ← readValue 32
  pure (v &&& 0xffffffff)

/-- `bits.rs`: `read_u64_bits` (`assert!(n <= 64)`). -/
def readU64Bits (n : Nat) : DecM Nat := fun st =>
  if n ≤ 64 then readValue n st else .aborted

/-- `bits.rs`: `read_u64`. -/
def readU64 : DecM Nat := readValue 64

/-- `bits.rs`: `read_u128`: two 64-bit reads, high half first. -/
def readU128 : DecM Nat := do
  let hi ← readValue 64
  let lo ← readValue 64
  pure (((hi <<< 64) ||| lo) % 2 ^ 128)

/-- Modelled from the spec: `align_to_byte` is called on the reader in
`frame.rs` but its definition is not among the provided sources.  §4.2:
`align_to_byte()` discards the queue (sets the count to 0). -/
def alignToByte : DecM Unit := fun st =>
  .ok () { st with queue := 0, queueCount := 0 }

/-- The reader over a fresh byte source, as built in `main.rs`:
an empty bit queue and both CRC regions closed. -/
def initState (bs : List Nat) : DecodeState :=
  { source := bs, queue := 0, queueCount := 0,
    crc8 := 0, crc16 := 0, computingCrc8 := false, computingCrc16 := false }

/-- Sanity check mirroring the `bits.rs` unit test `test_flac_magic`. -/
theorem sanity_flac_magic :
    readU32 (initState [0x66, 0x4c, 0x61, 0x43, 0, 0, 0x22]) =
      .ok 0x664c6143 (initState [0, 0, 0x22]) := rfl

/-- Sanity check mirroring the `bits.rs` unit test `test_boundary_crossover`:
reading 62 bits and then 10 bits across a byte boundary. -/
theorem sanity_boundary_crossover :
    (do
      let a ← readU64Bits 62
      let b ← readU64Bits 10
      pure (a, b) :
      DecM (Nat × Nat))
      (initState [0b10110110, 0b11001100, 0b11110110, 0b11001001,
                  0b10001001, 0b11101101, 0b01001000, 0b01011001, 0b01011001]) =
      .ok (0b10110110110011001111011011001001100010011110110101001000010110,
           0b0101011001) (initState []) := rfl


/-! ## Bit sequences -/

/-- The `n`-bit big-endian (MSB-first) bit sequence of a value: bit `n - 1`
first.  Only the low `n` bits of `v` are inspected. -/
def natBits (v : Nat) : Nat → List Bool
  | 0 => []
  | n + 1 => v.testBit n :: natBits v n

/-- The big-endian MSB-first bit sequence of a byte string. -/
def bytesBits : List Nat → List Bool
  | [] => []
  | b :: bs => natBits b 8 ++ bytesBits bs

/-- The big-endian value of a byte string (`u64::from_be_bytes` applied to
the zero-padded buffer equals this fold over the fetched bytes). -/
def beVal (bs : List Nat) : Nat := bs.foldl (fun a b => a * 256 + b) 0

theorem natBits_length (v n : Nat) : (natBits v n).length = n := by
  induction n with
  | zero => rfl
  | succ n ih => simp [natBits, ih]

theorem natBits_split (v k m : Nat) :
    natBits v (k + m) = natBits (v >>> m) k ++ natBits v m := by
  induction k with
  | zero => simp [natBits]
  | succ k ih =>
      have : k + 1 + m = (k + m) + 1 := by omega
      rw [this]
      simp only [natBits, ih, Nat.testBit_shiftRight]
      have : m + k = k + m := by omega
      rw [this]
      rfl

theorem natBits_mod (v k m : Nat) (h : m ≤ k) :
    natBits (v % 2 ^ k) m = natBits v m := by
  induction m with
  | zero => rfl
  | succ m ih =>
      simp only [natBits]
      rw [Nat.testBit_mod_two_pow]
      have h1 : m < k := by omega
      simp [h1, ih (by omega)]

theorem bytesBits_length (bs : List Nat) : (bytesBits bs).length = 8 * bs.length := by
  induction bs with
  | nil => rfl
  | cons b bs ih => simp [bytesBits, natBits_length, ih]; omega

theorem bytesBits_append (xs ys : List Nat) :
    bytesBits (xs ++ ys) = bytesBits xs ++ bytesBits ys := by
  induction xs with
  | nil => rfl
  | cons b bs ih => simp [bytesBits, ih]

theorem beVal_foldl (a : Nat) (bs : List Nat) :
    bs.foldl (fun a b => a * 256 + b) a = a * 256 ^ bs.length + beVal bs := by
  induction bs generalizing a with
  | nil => simp [beVal]
  | cons c cs ih =>
      have hc : beVal (c :: cs) = c * 256 ^ cs.length + beVal cs := by
        show cs.foldl (fun a b => a * 256 + b) (0 * 256 + c) = _
        rw [ih]
        ring_nf
      simp only [List.foldl_cons]
      rw [ih, hc, List.length_cons]
      ring

theorem beVal_cons (b : Nat) (bs : List Nat) :
    beVal (b :: bs) = b * 256 ^ bs.length + beVal bs := by
  show bs.foldl (fun a b => a * 256 + b) (0 * 256 + b) = _
  rw [beVal_foldl]
  ring_nf

theorem beVal_lt (bs : List Nat) (h : ∀ b ∈ bs, b < 256) :
    beVal bs < 256 ^ bs.length := by
  induction bs with
  | nil => simp [beVal]
  | cons b bsr ih =>
      rw [beVal_cons, List.length_cons, pow_succ]
      have hb : b < 256 := h b (by simp)
      have hr : beVal bsr < 256 ^ bsr.length := ih (fun x hx => h x (by simp [hx]))
      calc b * 256 ^ bsr.length + beVal bsr
          < b * 256 ^ bsr.length + 256 ^ bsr.length := by omega
        _ = (b + 1) * 256 ^ bsr.length := by ring
        _ ≤ 256 * 256 ^ bsr.length := by
            exact Nat.mul_le_mul_right _ (by omega)
        _ = 256 ^ bsr.length * 256 := by ring

theorem pow256_eq (k : Nat) : (256 : Nat) ^ k = 2 ^ (8 * k) := by
  have : (256 : Nat) = 2 ^ 8 := by norm_num
  rw [this, ← pow_mul]

theorem bytesBits_eq_natBits (bs : List Nat) (h : ∀ b ∈ bs, b < 256) :
    bytesBits bs = natBits (beVal bs) (8 * bs.length) := by
  induction bs with
  | nil => rfl
  | cons b bsr ih =>
      have hv : beVal bsr < 2 ^ (8 * bsr.length) := by
        rw [← pow256_eq]
        exact beVal_lt bsr (fun x hx => h x (by simp [hx]))
      have hlen : 8 * (b :: bsr).length = 8 + 8 * bsr.length := by
        simp [List.length_cons]; ring
      rw [hlen, natBits_split, beVal_cons, pow256_eq]
      have h1 : (b * 2 ^ (8 * bsr.length) + beVal bsr) >>> (8 * bsr.length) = b := by
        rw [Nat.shiftRight_eq_div_pow, Nat.add_comm,
          Nat.add_mul_div_right _ _ (Nat.pos_pow_of_pos _ (by norm_num)),
          Nat.div_eq_of_lt hv]
        omega
      have h2 : natBits (b * 2 ^ (8 * bsr.length) + beVal bsr) (8 * bsr.length) =
          natBits (beVal bsr) (8 * bsr.length) := by
        rw [← natBits_mod _ (8 * bsr.length) _ (le_refl _), Nat.mul_comm b,
          Nat.mul_add_mod, Nat.mod_eq_of_lt hv]
      rw [h1, h2, bytesBits]
      rw [ih (fun x hx => h x (by simp [hx]))]

/-- Disjoint bitwise or is addition: or-ing a value below `2 ^ m` into a
multiple of `2 ^ m`. -/
theorem lor_mul_two_pow_eq_add (a b m : Nat) (h : b < 2 ^ m) :
    (a * 2 ^ m) ||| b = a * 2 ^ m + b := by
  apply Nat.eq_of_testBit_eq
  intro i
  rw [Nat.testBit_lor]
  rcases Nat.lt_or_ge i m with hi | hi
  · have h1 : (a * 2 ^ m).testBit i = false := by
      rw [← Nat.shiftLeft_eq, Nat.testBit_shiftLeft]
      simp [Nat.not_le_of_lt hi]
    have h2 : (a * 2 ^ m + b).testBit i = b.testBit i := by
      rw [Nat.testBit_to_div_mod, Nat.testBit_to_div_mod]
      have hm : (2 : Nat) ^ m = 2 ^ (m - i) * 2 ^ i := by
        rw [← pow_add]
        congr 1
        omega
      have hsplit : a * 2 ^ m + b = b + (a * 2 ^ (m - i)) * 2 ^ i := by
        rw [hm]; ring
      have heven : a * 2 ^ (m - i) = 2 * (a * 2 ^ (m - i - 1)) := by
        obtain ⟨j, hj⟩ : ∃ j, m - i = j + 1 := ⟨m - i - 1, by omega⟩
        rw [hj]
        have hj1 : j + 1 - 1 = j := by omega
        rw [hj1, pow_succ]
        ring
      rw [hsplit, Nat.add_mul_div_right _ _ (Nat.pos_pow_of_pos _ (by norm_num)),
        decide_eq_decide]
      omega
    rw [h1, h2, Bool.false_or]
  · have hb : b < 2 ^ i :=
      lt_of_lt_of_le h (Nat.pow_le_pow_right (by norm_num) hi)
    have h1 : b.testBit i = false := Nat.testBit_lt_two_pow hb
    have h2 : (a * 2 ^ m).testBit i = a.testBit (i - m) := by
      rw [← Nat.shiftLeft_eq, Nat.testBit_shiftLeft]
      simp [hi]
    have h3 : (a * 2 ^ m + b).testBit i = a.testBit (i - m) := by
      rw [Nat.testBit_to_div_mod, Nat.testBit_to_div_mod]
      have hi2 : (2 : Nat) ^ i = 2 ^ m * 2 ^ (i - m) := by
        rw [← pow_add]
        congr 1
        omega
      rw [hi2, ← Nat.div_div_eq_div_mul, Nat.add_comm,
        Nat.add_mul_div_right _ _ (Nat.pos_pow_of_pos _ (by norm_num)),
        Nat.div_eq_of_lt h]
      simp
    rw [h1, h2, h3, Bool.or_false]

theorem and_shiftLeft_one_sub_one (x r : Nat) : x &&& ((1 <<< r) - 1) = x % 2 ^ r := by
  rw [Nat.shiftLeft_eq, one_mul, Nat.and_pow_two_sub_one_eq_mod]

theorem and_seven (x : Nat) : x &&& 7 = x % 8 := by
  have h := Nat.and_pow_two_sub_one_eq_mod x 3
  norm_num at h
  exact h

/-! ## Specification of the bit reader -/

/-- The stream of bits still to be served by the reader: the queued bits
(MSB-first) followed by the bits of the pending source bytes. -/
def readerBits (st : DecodeState) : List Bool :=
  natBits st.queue st.queueCount ++ bytesBits st.source

/-- Invariant of `BitReader`: at most 7 queued bits, the queue value fits in
`queue_count` bits, and the source holds bytes. -/
structure GoodState (st : DecodeState) : Prop where
  queueCount_le : st.queueCount ≤ 7
  queue_lt : st.queue < 2 ^ st.queueCount
  bytes_lt : ∀ b ∈ st.source, b < 256

theorem readerBits_length (st : DecodeState) :
    (readerBits st).length = st.queueCount + 8 * st.source.length := by
  simp [readerBits, natBits_length, bytesBits_length]

theorem initState_good (bs : List Nat) (h : ∀ b ∈ bs, b < 256) :
    GoodState (initState bs) :=
  ⟨by simp [initState], by simp [initState], h⟩

theorem readExact_ok {k : Nat} {st : DecodeState} (h : k ≤ st.source.length) :
    readExact k st = .ok (st.source.take k) { st with
      source := st.source.drop k
      crc8 := if st.computingCrc8 then crc8Run st.crc8 (st.source.take k) else st.crc8
      crc16 := if st.computingCrc16 then crc16Run st.crc16 (st.source.take k) else st.crc16 } := by
  simp [readExact, h]

theorem readValue_fetch {n : Nat} {st : DecodeState} (hn : n ≤ 64) (hc : st.queueCount < n)
    (hle : (n - st.queueCount - 1) / 8 + 1 ≤ st.source.length) :
    readValue n st =
      .ok ((if n - st.queueCount < 64 then (st.queue <<< (n - st.queueCount)) % 2 ^ 64 else 0)
            ||| (beVal (st.source.take ((n - st.queueCount - 1) / 8 + 1))
                  >>> ((8 - ((n - st.queueCount) &&& 7)) &&& 7)))
        { st with
          source := st.source.drop ((n - st.queueCount - 1) / 8 + 1)
          crc8 := if st.computingCrc8 then
              crc8Run st.crc8 (st.source.take ((n - st.queueCount - 1) / 8 + 1)) else st.crc8
          crc16 := if st.computingCrc16 then
              crc16Run st.crc16 (st.source.take ((n - st.queueCount - 1) / 8 + 1)) else st.crc16
          queue := beVal (st.source.take ((n - st.queueCount - 1) / 8 + 1))
              &&& ((1 <<< ((8 - ((n - st.queueCount) &&& 7)) &&& 7)) - 1)
          queueCount := (8 - ((n - st.queueCount) &&& 7)) &&& 7 } := by
  simp only [readValue, if_pos hn, if_pos hc, readExact_ok hle]
  rfl

theorem readValue_queue {n : Nat} {st : DecodeState} (hn : n ≤ 64) (hc : ¬ st.queueCount < n) :
    readValue n st =
      .ok (st.queue >>> (st.queueCount - n))
        { st with
          queue := st.queue &&& ((1 <<< (st.queueCount - n)) - 1)
          queueCount := st.queueCount - n } := by
  simp only [readValue, if_pos hn, if_neg hc]

theorem take_len_append {α : Type} (A B : List α) {n : Nat} (h : A.length = n) :
    (A ++ B).take n = A := by
  subst h
  exact List.take_left A B

theorem drop_len_append {α : Type} (A B : List α) {n : Nat} (h : A.length = n) :
    (A ++ B).drop n = B := by
  subst h
  exact List.drop_left A B

/-- Correctness of `read_value`: if at least `n ≤ 64` bits remain, the read
succeeds, returns exactly the next `n` bits of the stream (MSB-first, as an
`n`-bit value), and leaves precisely the remaining bits in the reader. -/
theorem readValue_spec {st : DecodeState} {n : Nat} (hg : GoodState st)
    (hn : n ≤ 64) (hlen : n ≤ (readerBits st).length) :
    ∃ v st', readValue n st = .ok v st' ∧ GoodState st' ∧ v < 2 ^ n ∧
      natBits v n = (readerBits st).take n ∧
      readerBits st' = (readerBits st).drop n := by
  obtain ⟨hqc, hq, hbs⟩ := hg
  have hlen' : n ≤ st.queueCount + 8 * st.source.length := by
    rw [readerBits_length] at hlen
    exact hlen
  by_cases hc : st.queueCount < n
  · -- some bits must be fetched from the source
    have hnb1 : 1 ≤ n - st.queueCount := by omega
    have hle : (n - st.queueCount - 1) / 8 + 1 ≤ st.source.length := by omega
    set c := st.queueCount with hcdef
    set q := st.queue with hqdef
    set nBits := n - c with hnbdef
    set nBytes := (nBits - 1) / 8 + 1 with hnbydef
    set bytes := st.source.take nBytes with hbytesdef
    set rest := st.source.drop nBytes with hrestdef
    set L := beVal bytes with hLdef
    set r := (8 - (nBits &&& 7)) &&& 7 with hrdef
    have hbl : bytes.length = nBytes := by
      rw [hbytesdef, List.length_take]
      omega
    have hbytes_lt : ∀ b ∈ bytes, b < 256 := fun b hb => hbs b (List.take_subset _ _ hb)
    have hrest_lt : ∀ b ∈ rest, b < 256 := fun b hb => hbs b (List.drop_subset _ _ hb)
    have hr8 : r = 8 * nBytes - nBits := by
      rw [hrdef]
      simp only [and_seven]
      omega
    have hr7 : r ≤ 7 := by
      rw [hrdef]
      simp only [and_seven]
      omega
    have hsum : 8 * nBytes = nBits + r := by omega
    have hLlt : L < 2 ^ (8 * nBytes) := by
      rw [hLdef, ← hbl, ← pow256_eq]
      exact beVal_lt bytes hbytes_lt
    have hdeq : (if nBits < 64 then (q <<< nBits) % 2 ^ 64 else 0) = q * 2 ^ nBits := by
      by_cases h64 : nBits < 64
      · rw [if_pos h64, Nat.shiftLeft_eq]
        apply Nat.mod_eq_of_lt
        calc q * 2 ^ nBits < 2 ^ c * 2 ^ nBits :=
              mul_lt_mul_of_pos_right hq (Nat.pos_pow_of_pos _ (by norm_num))
          _ = 2 ^ (c + nBits) := (pow_add 2 c nBits).symm
          _ ≤ 2 ^ 64 := Nat.pow_le_pow_right (by norm_num) (by omega)
      · rw [if_neg h64]
        have hc0 : c = 0 := by omega
        have hq1 : q < 1 := by
          have hq2 := hq
          rw [hc0] at hq2
          simpa using hq2
        have hq0 : q = 0 := by omega
        rw [hq0]
        ring
    have hdivlt : L / 2 ^ r < 2 ^ nBits := by
      rw [Nat.div_lt_iff_lt_mul (Nat.pos_pow_of_pos _ (by norm_num)), ← pow_add]
      calc L < 2 ^ (8 * nBytes) := hLlt
        _ = 2 ^ (nBits + r) := by rw [hsum]
    have hlor : q * 2 ^ nBits ||| (L >>> r) = q * 2 ^ nBits + L / 2 ^ r := by
      rw [Nat.shiftRight_eq_div_pow]
      exact lor_mul_two_pow_eq_add _ _ _ hdivlt
    have hvlt : q * 2 ^ nBits + L / 2 ^ r < 2 ^ n := by
      calc q * 2 ^ nBits + L / 2 ^ r < q * 2 ^ nBits + 2 ^ nBits := by omega
        _ = (q + 1) * 2 ^ nBits := by ring
        _ ≤ 2 ^ c * 2 ^ nBits := Nat.mul_le_mul_right _ (by omega)
        _ = 2 ^ n := by
            rw [← pow_add]
            congr 1
            omega
    have hsrc : st.source = bytes ++ rest := (List.take_append_drop nBytes st.source).symm
    have hbB : bytesBits bytes = natBits (L / 2 ^ r) nBits ++ natBits L r := by
      rw [bytesBits_eq_natBits bytes hbytes_lt, ← hLdef, hbl, hsum, natBits_split,
        Nat.shiftRight_eq_div_pow]
    have hstream : readerBits st =
        natBits q c ++ (natBits (L / 2 ^ r) nBits ++ (natBits L r ++ bytesBits rest)) := by
      rw [readerBits, hsrc, bytesBits_append, hbB, List.append_assoc]
    have hn2 : n = c + nBits := by omega
    have hXdiv : (q * 2 ^ nBits + L / 2 ^ r) / 2 ^ nBits = q := by
      rw [Nat.add_comm, Nat.add_mul_div_right _ _ (Nat.pos_pow_of_pos _ (by norm_num)),
        Nat.div_eq_of_lt hdivlt]
      omega
    have hXmod : (q * 2 ^ nBits + L / 2 ^ r) % 2 ^ nBits = L / 2 ^ r := by
      rw [Nat.mul_comm q, Nat.mul_add_mod, Nat.mod_eq_of_lt hdivlt]
    refine ⟨_, _, readValue_fetch hn hc hle, ⟨?_, ?_, ?_⟩, ?_, ?_, ?_⟩
    · show r ≤ 7
      exact hr7
    · show L &&& ((1 <<< r) - 1) < 2 ^ r
      rw [and_shiftLeft_one_sub_one]
      exact Nat.mod_lt _ (Nat.pos_pow_of_pos _ (by norm_num))
    · show ∀ b ∈ rest, b < 256
      exact hrest_lt
    · show (if nBits < 64 then (q <<< nBits) % 2 ^ 64 else 0) ||| (L >>> r) < 2 ^ n
      rw [hdeq, hlor]
      exact hvlt
    · show natBits ((if nBits < 64 then (q <<< nBits) % 2 ^ 64 else 0) ||| (L >>> r)) n =
        (readerBits st).take n
      rw [hdeq, hlor, hstream, hn2, natBits_split, Nat.shiftRight_eq_div_pow, hXdiv,
        ← natBits_mod (q * 2 ^ nBits + L / 2 ^ r) nBits nBits (le_refl _), hXmod,
        show c + nBits = (natBits q c).length + nBits by rw [natBits_length],
        List.take_append, take_len_append _ _ (natBits_length (L / 2 ^ r) nBits)]
    · show natBits (L &&& ((1 <<< r) - 1)) r ++ bytesBits rest = (readerBits st).drop n
      rw [and_shiftLeft_one_sub_one, natBits_mod L r r (le_refl _), hstream, hn2,
        show c + nBits = (natBits q c).length + nBits by rw [natBits_length],
        List.drop_append, drop_len_append _ _ (natBits_length (L / 2 ^ r) nBits)]
  · -- served entirely from the queue
    have hn' : n ≤ st.queueCount := by omega
    set c := st.queueCount with hcdef
    set q := st.queue with hqdef
    set r := c - n with hrdef
    have hr7 : r ≤ 7 := by omega
    have hc2 : c = n + r := by omega
    have hsplit : natBits q c = natBits (q >>> r) n ++ natBits q r := by
      rw [hc2, natBits_split]
    have hstream : readerBits st =
        natBits (q >>> r) n ++ (natBits q r ++ bytesBits st.source) := by
      rw [readerBits, hsplit, List.append_assoc]
    have hqmod : q &&& ((1 <<< r) - 1) = q % 2 ^ r := and_shiftLeft_one_sub_one q r
    refine ⟨_, _, readValue_queue hn hc, ⟨?_, ?_, ?_⟩, ?_, ?_, ?_⟩
    · show r ≤ 7
      exact hr7
    · show q &&& ((1 <<< r) - 1) < 2 ^ r
      rw [hqmod]
      exact Nat.mod_lt _ (Nat.pos_pow_of_pos _ (by norm_num))
    · show ∀ b ∈ st.source, b < 256
      exact hbs
    · show q >>> r < 2 ^ n
      rw [Nat.shiftRight_eq_div_pow,
        Nat.div_lt_iff_lt_mul (Nat.pos_pow_of_pos _ (by norm_num)), ← pow_add]
      calc q < 2 ^ c := hq
        _ ≤ 2 ^ (n + r) := by rw [hc2]
    · show natBits (q >>> r) n = (readerBits st).take n
      rw [hstream, take_len_append _ _ (natBits_length (q >>> r) n)]
    · show natBits (q &&& ((1 <<< r) - 1)) r ++ bytesBits st.source = (readerBits st).drop n
      rw [hqmod, natBits_mod q r r (le_refl _), hstream,
        drop_len_append _ _ (natBits_length (q >>> r) n)]

/-- Read the widths `ws` in order with `read_u64_bits`, collecting the
returned values. -/
def readWidths : List Nat → DecM (List Nat)
  | [] => pure []
  | w :: ws => do
      let v ← readU64Bits w
      let vs ← readWidths ws
      pure (v :: vs)

/-- Re-serialise returned values at their declared widths, big-endian
MSB-first. -/
def concatBits : List Nat → List Nat → List Bool
  | w :: ws, v :: vs => natBits v w ++ concatBits ws vs
  | _, _ => []

theorem readWidths_spec (ws : List Nat) (st : DecodeState) (hg : GoodState st)
    (hw : ∀ w ∈ ws, w ≤ 64) (hlen : ws.sum ≤ (readerBits st).length) :
    ∃ vs st', readWidths ws st = .ok vs st' ∧ GoodState st' ∧
      concatBits ws vs = (readerBits st).take ws.sum ∧
      readerBits st' = (readerBits st).drop ws.sum := by
  induction ws generalizing st with
  | nil => exact ⟨[], st, rfl, hg, by simp [concatBits], by simp⟩
  | cons w ws ih =>
      have hw1 : w ≤ 64 := hw w (by simp)
      have hsum : w + ws.sum ≤ (readerBits st).length := by
        rw [List.sum_cons] at hlen
        exact hlen
      have hlen1 : w ≤ (readerBits st).length := by omega
      obtain ⟨v, st1, hrun, hg1, hvlt, hbits, hrem⟩ := readValue_spec hg hw1 hlen1
      have hlen2 : ws.sum ≤ (readerBits st1).length := by
        rw [hrem, List.length_drop]
        omega
      obtain ⟨vs, st2, hrun2, hg2, hconcat, hrem2⟩ :=
        ih st1 hg1 (fun x hx => hw x (by simp [hx])) hlen2
      refine ⟨v :: vs, st2, ?_, hg2, ?_, ?_⟩
      · simp only [readWidths]
        have hu : readU64Bits w st = .ok v st1 := by
          show (if w ≤ 64 then readValue w st else .aborted) = _
          rw [if_pos hw1, hrun]
        exact DecM.bind_ok_intro hu (DecM.bind_ok_intro hrun2 rfl)
      · simp only [concatBits]
        rw [hbits, hconcat, hrem, List.sum_cons, List.take_add]
      · rw [hrem2, hrem, List.drop_drop, List.sum_cons]

/-- **C3** Bit reader round-trip: for every partition `w₁, …, w_k` of the
first `Σ wᵢ` bits of a byte source (each width at most 64), reading those
widths in order from a fresh `BitReader` succeeds, and the big-endian
MSB-first concatenation of the returned values at their declared widths
equals that bit sequence. -/
theorem c3_bit_reader_roundtrip (ws : List Nat) (bs : List Nat)
    (hw : ∀ w ∈ ws, w ≤ 64) (hb : ∀ b ∈ bs, b < 256)
    (hsum : ws.sum ≤ 8 * bs.length) :
    ∃ vs st', readWidths ws (initState bs) = .ok vs st' ∧
      concatBits ws vs = (bytesBits bs).take ws.sum := by
  have hg := initState_good bs hb
  have hinit : readerBits (initState bs) = bytesBits bs := by
    simp [readerBits, initState, natBits]
  have hlen : ws.sum ≤ (readerBits (initState bs)).length := by
    rw [hinit, bytesBits_length]
    exact hsum
  obtain ⟨vs, st', h1, _, h2, _⟩ := readWidths_spec ws (initState bs) hg hw hlen
  rw [hinit] at h2
  exact ⟨vs, st', h1, h2⟩

/-- Witness for C3 at the `test_boundary_crossover` input of `bits.rs`:
widths `[62, 10]` over a concrete 9-byte source. -/
theorem c3_bit_reader_roundtrip_witness :
    ∃ vs st',
      readWidths [62, 10]
        (initState [0b10110110, 0b11001100, 0b11110110, 0b11001001,
                    0b10001001, 0b11101101, 0b01001000, 0b01011001, 0b01011001]) = .ok vs st' ∧
      concatBits [62, 10] vs =
        (bytesBits [0b10110110, 0b11001100, 0b11110110, 0b11001001,
                    0b10001001, 0b11101101, 0b01001000, 0b01011001, 0b01011001]).take
          ([62, 10] : List Nat).sum :=
  c3_bit_reader_roundtrip [62, 10] _ (by decide) (by decide) (by decide)

/-! ## Sign extension (`frame.rs`) -/

/-- `frame.rs` `sign_extend(x, n)`: `((x << m) as i64) >> m` with
`m = 64 - n`, over `u64`/`i64` two's-complement arithmetic (the `u64` left
shift wraps modulo `2 ^ 64`; the signed right shift is arithmetic). -/
def sign_extend (x : Nat) (n : Nat) : Int :=
  let m := 64 - n
  asr (u64AsI64 ((x <<< m) % 2 ^ 64)) m

/-- Sanity check mirroring the `frame.rs` unit test `test_sign_extend`. -/
theorem sanity_sign_extend :
    sign_extend 0b110 3 = -2 ∧ sign_extend 0b10110011 8 = -77 ∧
    sign_extend 0b001 3 = 1 ∧ sign_extend 0b00110011 8 = 51 := by
  refine ⟨?_, ?_, ?_, ?_⟩ <;> decide

/-- **C9** Sign extension: for every `n ∈ 1..=64` and every `n`-bit unsigned
value `u`, the decoder's `sign_extend(u, n)` equals
`u - ((u >> (n-1)) << n)` in exact integer arithmetic. -/
theorem c9_sign_extend (n u : Nat) (h1 : 1 ≤ n) (h2 : n ≤ 64) (hu : u < 2 ^ n) :
    sign_extend u n = (u : Int) - (((u >>> (n - 1)) <<< n : Nat) : Int) := by
  have hpow : (2 : Nat) ^ n * 2 ^ (64 - n) = 2 ^ 64 := by
    rw [← pow_add]
    congr 1
    omega
  have hul : u * 2 ^ (64 - n) < 2 ^ 64 := by
    calc u * 2 ^ (64 - n) < 2 ^ n * 2 ^ (64 - n) :=
          mul_lt_mul_of_pos_right hu (Nat.pos_pow_of_pos _ (by norm_num))
      _ = 2 ^ 64 := hpow
  have hshl : (u <<< (64 - n)) % 2 ^ 64 = u * 2 ^ (64 - n) := by
    rw [Nat.shiftLeft_eq, Nat.mod_eq_of_lt hul]
  have hbit : u >>> (n - 1) = u / 2 ^ (n - 1) := Nat.shiftRight_eq_div_pow u (n - 1)
  have hp1 : (2 : Nat) ^ n = 2 * 2 ^ (n - 1) := by
    obtain ⟨k, hk⟩ : ∃ k, n = k + 1 := ⟨n - 1, by omega⟩
    subst hk
    simp only [Nat.add_sub_cancel]
    rw [pow_succ]
    ring
  by_cases hb : u < 2 ^ (n - 1)
  · -- the sign bit is clear
    have hbits0 : u / 2 ^ (n - 1) = 0 := Nat.div_eq_of_lt hb
    have hlt63 : u * 2 ^ (64 - n) < 2 ^ 63 := by
      calc u * 2 ^ (64 - n) < 2 ^ (n - 1) * 2 ^ (64 - n) :=
            mul_lt_mul_of_pos_right hb (Nat.pos_pow_of_pos _ (by norm_num))
        _ = 2 ^ 63 := by
            rw [← pow_add]
            congr 1
            omega
    simp only [sign_extend, hshl, u64AsI64, if_pos hlt63, asr]
    rw [Nat.shiftLeft_eq, hbit, hbits0]
    push_cast
    rw [Int.mul_fdiv_cancel _ (by positivity)]
    ring
  · -- the sign bit is set
    have hge : 2 ^ (n - 1) ≤ u := by omega
    have hbits1 : u / 2 ^ (n - 1) = 1 := Nat.div_eq_of_lt_le (by omega) (by omega)
    have hge63 : 2 ^ 63 ≤ u * 2 ^ (64 - n) := by
      calc (2 : Nat) ^ 63 = 2 ^ (n - 1) * 2 ^ (64 - n) := by
            rw [← pow_add]
            congr 1
            omega
        _ ≤ u * 2 ^ (64 - n) := Nat.mul_le_mul_right _ hge
    simp only [sign_extend, hshl, u64AsI64,
      if_neg (by omega : ¬ u * 2 ^ (64 - n) < 2 ^ 63), asr]
    rw [Nat.shiftLeft_eq, hbit, hbits1]
    have key : ((u * 2 ^ (64 - n) : Nat) : Int) - 2 ^ 64 =
        ((u : Int) - 2 ^ n) * 2 ^ (64 - n) := by
      have h64 : ((2 : Int) ^ n) * 2 ^ (64 - n) = 2 ^ 64 := by
        rw [← pow_add]
        congr 1
        omega
      push_cast
      linear_combination h64
    rw [key, Int.mul_fdiv_cancel _ (by positivity)]
    push_cast
    ring

/-! ## Bit-measure of the reader, and unary/Rice decoding -/

/-- The number of unread bits held by the reader (queue plus source). -/
def meas (st : DecodeState) : Nat := 8 * st.source.length + st.queueCount

theorem readValue_meas {n : Nat} {st : DecodeState} {v : Nat} {st' : DecodeState}
    (h : readValue n st = .ok v st') : meas st' + n = meas st := by
  simp only [readValue] at h
  by_cases hn : n ≤ 64
  · rw [if_pos hn] at h
    by_cases hc : st.queueCount < n
    · rw [if_pos hc] at h
      rcases he : readExact ((n - st.queueCount - 1) / 8 + 1) st with ⟨bytes, st1⟩ | e | _ <;>
        rw [he] at h
      · injection h with h1 h2
        subst h2
        simp only [readExact] at he
        by_cases hk : (n - st.queueCount - 1) / 8 + 1 ≤ st.source.length
        · rw [if_pos hk] at he
          injection he with he1 he2
          subst he2
          simp only [meas, List.length_drop]
          simp only [and_seven]
          omega
        · rw [if_neg hk] at he
          cases he
      · cases h
      · cases h
    · rw [if_neg hc] at h
      injection h with h1 h2
      subst h2
      simp only [meas]
      omega
  · rw [if_neg hn] at h
    cases h

theorem readBool_meas {st : DecodeState} {b : Bool} {st' : DecodeState}
    (h : readBool st = .ok b st') : meas st' + 1 = meas st := by
  obtain ⟨v, st1, h1, h2⟩ := DecM.bind_ok h
  cases h2
  exact readValue_meas h1

/-- Modelled from the spec: the body of `read_unary`, with an explicit fuel
argument to make the recursion structural.  Each `read_bool` consumes one
bit, so a fuel exceeding the reader's bit count (`meas`) makes the `0` case
unreachable; `readUnary` below always supplies such a fuel. -/
def readUnaryGo : Nat → DecodeState → DRes Nat
  | 0, _ => .aborted
  | fuel + 1, st =>
      match readBool st with
      | .ok true st' => .ok 0 st'
      | .ok false st' =>
          match readUnaryGo fuel st' with
          | .ok k st'' => .ok (k + 1) st''
          | .err e => .err e
          | .aborted => .aborted
      | .err e => .err e
      | .aborted => .aborted

/-- Modelled from the spec: `read_unary` is called by `decode_rice`
(`decode.rs`) but its definition is not among the provided sources.  §4.2:
`read_unary()` "counts leading zero bits up to and including the
terminating one bit" — repeated `read_bool` until a one bit arrives,
returning the count of zero bits. -/
def readUnary : DecM Nat := fun st => readUnaryGo (meas st + 1) st

/-- Bitwise xor of two `i32` values through their 32-bit two's-complement
patterns (Rust `^` on `i32`). -/
def i32Xor (a b : Int) : Int :=
  toI32 (Int.ofNat ((a % 2 ^ 32).toNat ^^^ (b % 2 ^ 32).toNat))

/-- `decode.rs` `decode_rice`: unary-coded quotient, `parameter` bits of
remainder, then zig-zag decoding `(v >> 1) ^ -(v & 1)` on the `i32`
reinterpretation (`msb` is a `u32`, so its shift wraps modulo `2 ^ 32`). -/
def decodeRice (parameter : Nat) : DecM Int := do
  let msb ← readUnary
  let lsb ← readU32Bits parameter
  let v := toI32 (Int.ofNat ((((msb % 2 ^ 32) <<< parameter) % 2 ^ 32) ||| lsb))
  pure (i32Xor (asr v 1) (- Int.land v 1))

/-- Sanity check mirroring the `decode.rs` unit test `test_rice`. -/
theorem sanity_rice :
    (do
      let a ← decodeRice 3
      let b ← decodeRice 3
      let c ← decodeRice 3
      let d ← decodeRice 3
      let e ← decodeRice 3
      let f ← decodeRice 3
      let g ← decodeRice 2
      pure [a, b, c, d, e, f, g] : DecM (List Int))
      (initState [0b10001001, 0b10101011, 0b11000000, 0b10100000, 0b00000101]) =
      .ok [0, -1, 1, -2, 2, 17, -19] (initState []) := by decide

/-! ## Subframes (`frame.rs`) -/

/-- `frame.rs` `PredictionMethod`. -/
inductive PredictionMethod where
  | constant
  | verbatim
  | fixed (order : Nat)
  | fir (order : Nat)
  deriving DecidableEq, Repr

/-- `frame.rs` `PredictionMethod::parse` of the 6-bit subframe type code. -/
def PredictionMethod.parse (n : Nat) : Option PredictionMethod :=
  if n = 0b000000 then some .constant
  else if n = 0b000001 then some .verbatim
  else if 0b001000 ≤ n ∧ n ≤ 0b001111 then some (.fixed (n &&& 0b000111))
  else if 0b100000 ≤ n ∧ n ≤ 0b111111 then some (.fir ((n &&& 0b011111) + 1))
  else none

/-- `frame.rs` `ChannelAssignment`. -/
inductive ChannelAssignment where
  | independent (numChannels : Nat)
  | leftSideStereo
  | sideRightStereo
  | midSideStereo
  deriving DecidableEq, Repr

/-- `frame.rs` `ChannelAssignment::parse` of the 4-bit channel code. -/
def ChannelAssignment.parse (n : Nat) : Option ChannelAssignment :=
  if n ≤ 0b0111 then some (.independent (n + 1))
  else if n = 0b1000 then some .leftSideStereo
  else if n = 0b1001 then some .sideRightStereo
  else if n = 0b1010 then some .midSideStereo
  else none

/-- `frame.rs` `SubframeHeader`. -/
structure SubframeHeader where
  method : PredictionMethod
  wastedBitsPerSample : Nat
  deriving Repr

/-- `frame.rs`: the wasted-bits loop of `SubframeHeader::from_reader`
(`loop { wasted += 1; if read_bool()? { break } }`), accumulating into
`acc`.  As with `readUnaryGo`, the explicit fuel makes the recursion
structural; a fuel above the reader's bit count is never exhausted because
each iteration consumes one bit. -/
def wastedBitsGo : Nat → Nat → DecodeState → DRes Nat
  | 0, _, _ => .aborted
  | fuel + 1, acc, st =>
      match readBool st with
      | .ok true st' => .ok (acc + 1) st'
      | .ok false st' => wastedBitsGo fuel (acc + 1) st'
      | .err e => .err e
      | .aborted => .aborted

/-- `frame.rs` `SubframeHeader::from_reader`. -/
def SubframeHeader.fromReader : DecM SubframeHeader := do
  -- zero bit padding, to prevent sync-fooling strings of 1s
  let zero ← readBool
  if zero then
    DecM.fail .subframeOutOfSync
  else do
    let code ← readU8Bits 6
    match PredictionMethod.parse code with
    | none => DecM.fail .subframeReservedType
    | some method => do
        let wastedFlag ← readBool
        let wasted ←
          if wastedFlag then (fun st => wastedBitsGo (meas st + 1) 0 st) else pure 0
        pure { method := method, wastedBitsPerSample := wasted }

/-- `frame.rs` `Subframe`. -/
structure Subframe where
  method : PredictionMethod
  sampleSize : Nat
  blockSize : Nat
  deriving Repr

/-- `frame.rs` `Subframe::from_reader`: the subframe bps is the frame bps
minus the wasted bits (a `usize` subtraction; `Nat` subtraction truncates
where the Rust debug build would abort on underflow). -/
def Subframe.fromReader (sampleSize blockSize : Nat) : DecM Subframe := do
  let header ← SubframeHeader.fromReader
  pure { method := header.method,
         sampleSize := sampleSize - header.wastedBitsPerSample,
         blockSize := blockSize }

/-- The repeated signed-sample read of `decode_verbatim` and of the warm-up
blocks: `sign_extend(read_u64_bits(bps)?, bps) as i32`, `count` times,
appended to `vec`. -/
def readSamples (bps : Nat) : Nat → List Int → DecM (List Int)
  | 0, vec => pure vec
  | count + 1, vec => do
      let u ← readU64Bits bps
      readSamples bps count (vec ++ [toI32 (sign_extend u bps)])

/-- `frame.rs` `Subframe::decode_constant`: one signed sample, replicated
`block_size` times. -/
def Subframe.decodeConstant (self : Subframe) (vec : List Int) : DecM (List Int) := do
  let u ← readU64Bits self.sampleSize
  pure (vec ++ List.replicate self.blockSize (toI32 (sign_extend u self.sampleSize)))

/-- `frame.rs` `Subframe::decode_verbatim`: `block_size` signed samples. -/
def Subframe.decodeVerbatim (self : Subframe) (vec : List Int) : DecM (List Int) :=
  readSamples self.sampleSize self.blockSize vec

/-- `frame.rs` `restore_signals`, inner accumulation:
`sample += coeff[j] * vec[i-j-1]` over `j`, in `i64` arithmetic (exact —
the magnitudes involved cannot overflow 64 bits). -/
def lpcSum (coefficients : List Int) (vec : List Int) (i : Nat) : Int :=
  (List.range coefficients.length).foldl
    (fun sample j => sample + coefficients.getD j 0 * vec.getD (i - j - 1) 0) 0

/-- `frame.rs` `restore_signals`, loop body:
`vec[i] += (sample >> shift) as i32` with wrapping `i32` addition. -/
def restoreStep (coefficients : List Int) (shift : Nat) (vec : List Int) (i : Nat) :
    List Int :=
  vec.set i (toI32 (vec.getD i 0 + toI32 (asr (lpcSum coefficients vec i) shift)))

/-- `frame.rs` `restore_signals`, the `for i in order..block_size` loop
(`fuel` is the remaining iteration count). -/
def restoreLoop (coefficients : List Int) (shift : Nat) :
    Nat → Nat → List Int → List Int
  | _, 0, vec => vec
  | i, fuel + 1, vec =>
      restoreLoop coefficients shift (i + 1) fuel (restoreStep coefficients shift vec i)

/-- `frame.rs` `Subframe::restore_signals` (pure in the reader state). -/
def Subframe.restoreSignals (self : Subframe) (coefficients : List Int) (shift : Int)
    (order : Nat) (vec : List Int) : DecM (List Int) := fun st =>
  if coefficients.length ≠ order ∨ vec.length ≠ self.blockSize ∨ shift < 0 then
    .err .lpcSignalRestoreFailure
  else
    .ok (restoreLoop coefficients shift.toNat order (self.blockSize - order) vec) st

/-- The per-partition sample loop of `decode_residuals`: `num_samples`
Rice-decoded values appended to `vec`. -/
def riceSamples (parameter : Nat) : Nat → List Int → DecM (List Int)
  | 0, vec => pure vec
  | count + 1, vec => do
      let s ← decodeRice parameter
      riceSamples parameter count (vec ++ [s])

/-- `frame.rs` `decode_residuals`, partition loop: `i_partition` counts up
from 0, `fuel` counts the remaining partitions.  Partition sizes follow
`determine_num_samples`; `assert!(parameter != escape)` aborts the process
on the Rice escape parameter (all ones in `depth` bits). -/
def residualPartitions (self : Subframe) (predictorOrder : Nat) (depth : Nat)
    (partitionOrder : Nat) : Nat → Nat → List Int → DecM (List Int)
  | _, 0, vec => pure vec
  | iPartition, fuel + 1, vec => do
      let numSamples :=
        if partitionOrder = 0 then self.blockSize - predictorOrder
        else if iPartition ≠ 0 then self.blockSize >>> partitionOrder
        else (self.blockSize >>> partitionOrder) - predictorOrder
      let parameter ← readU8Bits depth
      if parameter = (1 <<< depth) - 1 then
        DecM.abort
      else do
        let vec' ← riceSamples parameter numSamples vec
        residualPartitions self predictorOrder depth partitionOrder (iPartition + 1) fuel vec'

/-- `frame.rs` `Subframe::decode_residuals` after the Rice bit depth is
known: 4-bit partition order, then `1 << partition_order` partitions. -/
def Subframe.decodeResidualsDepth (self : Subframe) (vec : List Int)
    (predictorOrder : Nat) (depth : Nat) : DecM (List Int) := do
  let partitionOrder ← readU8Bits 4
  residualPartitions self predictorOrder depth partitionOrder 0 (1 <<< partitionOrder) vec

/-- `frame.rs` `Subframe::decode_residuals`: the 2-bit coding method selects
a 4- or 5-bit Rice parameter depth. -/
def Subframe.decodeResiduals (self : Subframe) (vec : List Int) (predictorOrder : Nat) :
    DecM (List Int) := do
  let codingMethod ← readU8Bits 2
  match codingMethod with
  | 0 => self.decodeResidualsDepth vec predictorOrder 4
  | 1 => self.decodeResidualsDepth vec predictorOrder 5
  | _ => DecM.fail .residualCodingMethodUnknown

/-- `frame.rs` `obtain_coefficients`: the fixed-predictor coefficient
table. -/
def obtainCoefficients (order : Nat) : Option (List Int) :=
  match order with
  | 0 => some []
  | 1 => some [1]
  | 2 => some [2, -1]
  | 3 => some [3, -3, 1]
  | 4 => some [4, -6, 4, -1]
  | _ => none

/-- The warm-up samples followed by residual decoding: the first two steps
of `decode_fixed`. -/
def Subframe.warmupResiduals (self : Subframe) (vec : List Int) (order : Nat) :
    DecM (List Int) := do
  let vec1 ← readSamples self.sampleSize order vec
  self.decodeResiduals vec1 order

/-- `frame.rs` `Subframe::decode_fixed`. -/
def Subframe.decodeFixed (self : Subframe) (vec : List Int) (order : Nat) :
    DecM (List Int) := do
  let vec1 ← self.warmupResiduals vec order
  match obtainCoefficients order with
  | none => DecM.fail .fixedLPCCoefficientUnknown
  | some coefficients => self.restoreSignals coefficients 0 order vec1

/-- The `order` signed quantized LPC coefficients of `decode_fir`, each
`precision` bits. -/
def readCoefficients (precision : Nat) : Nat → DecM (List Int)
  | 0 => pure []
  | k + 1 => do
      let u ← readU64Bits precision
      let rest ← readCoefficients precision k
      pure (toI32 (sign_extend u precision) :: rest)

/-- `frame.rs` `Subframe::decode_fir`. -/
def Subframe.decodeFir (self : Subframe) (vec : List Int) (order : Nat) :
    DecM (List Int) := do
  let vec1 ← readSamples self.sampleSize order vec
  let precisionBits ← readU8Bits 4
  if precisionBits = 0b1111 then
    DecM.fail .qlpPrecisionInvalid
  else do
    let precision := precisionBits + 1
    let shiftBits ← readU64Bits 5
    let shift := toI32 (sign_extend shiftBits 5)
    let coefficients ← readCoefficients precision order
    let vec2 ← self.decodeResiduals vec1 order
    self.restoreSignals coefficients shift order vec2

/-- `frame.rs` `Subframe::decode`. -/
def Subframe.decode (self : Subframe) (vec : List Int) : DecM (List Int) :=
  match self.method with
  | .constant => self.decodeConstant vec
  | .verbatim => self.decodeVerbatim vec
  | .fixed order => self.decodeFixed vec order
  | .fir order => self.decodeFir vec order

/-- One per-channel step of `Frame::from_reader`: `Subframe::from_reader`
followed by `Subframe::decode` into the channel buffer. -/
def decodeOneSubframe (sampleSize blockSize : Nat) (vec : List Int) : DecM (List Int) := do
  let subframe ← Subframe.fromReader sampleSize blockSize
  subframe.decode vec

/-- **C1** (code bug): the wasted-bits left shift is missing.  The concrete
subframe bit stream `0b00000001 0b10000001` under frame bps 8 is a constant
subframe whose header sets the wasted-bits flag with
`wasted_bits_per_sample = 1`, and whose constant sample, decoded at the
reduced width 7, is `sign_extend(1, 7) = 1`.  `Subframe::decode` delivers
that unshifted value; the spec requires each delivered sample to be the
decoded value left-shifted by 1, i.e. 2.  No shift by
`wasted_bits_per_sample` occurs anywhere in `frame.rs`. -/
theorem c1_wasted_bits_shift_missing :
    decodeOneSubframe 8 1 [] (initState [0b00000001, 0b10000001]) =
      .ok [toI32 (sign_extend 1 7)] (initState []) ∧
    toI32 (sign_extend 1 7) ≠ toI32 (sign_extend 1 7) * 2 ^ 1 := by
  constructor
  · rfl
  · decide

/-- **C2** (code bug): on a residual partition whose Rice parameter equals
the escape value (all ones), `decode_residuals` hits
`assert!(parameter != escape)` and aborts instead of reading a 5-bit width
and raw samples.  Concretely: coding method `0b00` (4-bit parameters),
partition order 0, parameter `0b1111` = escape. -/
theorem c2_escape_parameter_aborts :
    Subframe.decodeResiduals ⟨.fixed 0, 8, 1⟩ [] 0 (initState [0b00000011, 0b11000000]) =
      .aborted := rfl

/-- Counterexample to **C5** as stated: with `block_size = 1`,
`predictor_order = 0` and partition order `p = 1` (2 partitions of
`1 >> 1 = 0` samples each), residual decoding succeeds but appends 0
samples, not `block_size - predictor_order = 1`. -/
theorem c5_counterexample :
    Subframe.decodeResiduals ⟨.fixed 0, 8, 1⟩ [] 0 (initState [0b00000100, 0b00000000]) =
      .ok []
        { source := [], queue := 0, queueCount := 2, crc8 := 0, crc16 := 0,
          computingCrc8 := false, computingCrc16 := false } ∧
    ([] : List Int).length ≠ ([] : List Int).length + (1 - 0) := by
  constructor
  · rfl
  · decide

theorem riceSamples_ok_length (k : Nat) :
    ∀ {parameter : Nat} {vec : List Int} {st : DecodeState} {vec' : List Int}
      {st' : DecodeState},
      riceSamples parameter k vec st = .ok vec' st' → vec'.length = vec.length + k := by
  induction k with
  | zero =>
      intro parameter vec st vec' st' h
      cases h
      simp
  | succ k ih =>
      intro parameter vec st vec' st' h
      obtain ⟨sVal, st1, h1, h2⟩ := DecM.bind_ok h
      have := ih h2
      simp [List.length_append] at this
      omega

theorem residualPartitions_tail_length (k : Nat) :
    ∀ {sf : Subframe} {predictorOrder depth partitionOrder i : Nat} {vec : List Int}
      {st : DecodeState} {vec' : List Int} {st' : DecodeState},
      1 ≤ i →
      residualPartitions sf predictorOrder depth partitionOrder i k vec st = .ok vec' st' →
      vec'.length = vec.length +
        k * (if partitionOrder = 0 then sf.blockSize - predictorOrder
             else sf.blockSize >>> partitionOrder) := by
  induction k with
  | zero =>
      intro sf predictorOrder depth partitionOrder i vec st vec' st' hi h
      cases h
      simp
  | succ k ih =>
      intro sf predictorOrder depth partitionOrder i vec st vec' st' hi h
      simp only [residualPartitions] at h
      obtain ⟨parameter, st1, h1, h2⟩ := DecM.bind_ok h
      by_cases hesc : parameter = (1 <<< depth) - 1
      · rw [if_pos hesc] at h2
        cases h2
      · rw [if_neg hesc] at h2
        obtain ⟨vecMid, st2, h3, h4⟩ := DecM.bind_ok h2
        have hnum :
            (if partitionOrder = 0 then sf.blockSize - predictorOrder
             else if i ≠ 0 then sf.blockSize >>> partitionOrder
             else (sf.blockSize >>> partitionOrder) - predictorOrder) =
            (if partitionOrder = 0 then sf.blockSize - predictorOrder
             else sf.blockSize >>> partitionOrder) := by
          by_cases hp : partitionOrder = 0
          · simp [hp]
          · have hi0 : i ≠ 0 := by omega
            simp [hp, hi0]
        rw [hnum] at h3
        have hmid := riceSamples_ok_length _ h3
        have htail := ih (by omega : 1 ≤ i + 1) h4
        rw [htail, hmid, Nat.succ_mul]
        omega

/-- **C5** (amended): for every partition order `p` accepted by residual
decoding, the total number of residual samples appended across all `2^p`
partitions equals `2^p · (block_size >> p) - predictor_order`; when `2^p`
divides `block_size` (and the predictor order fits in the first partition)
this is `block_size - predictor_order`, the count the spec states. -/
theorem c5_residual_partition_totals (sf : Subframe) (predictorOrder depth p : Nat)
    (vec : List Int) (st : DecodeState) (vec' : List Int) (st' : DecodeState)
    (hrun : residualPartitions sf predictorOrder depth p 0 (1 <<< p) vec st = .ok vec' st')
    (hord : predictorOrder ≤ sf.blockSize >>> p) (hdvd : 2 ^ p ∣ sf.blockSize) :
    vec'.length = vec.length + (sf.blockSize - predictorOrder) := by
  have hp2 : (1 : Nat) <<< p = 2 ^ p := by rw [Nat.shiftLeft_eq, one_mul]
  rw [hp2] at hrun
  obtain ⟨m, hm⟩ : ∃ m, 2 ^ p = m + 1 :=
    ⟨2 ^ p - 1, by have := Nat.pos_pow_of_pos p (show 0 < 2 by norm_num); omega⟩
  rw [hm] at hrun
  simp only [residualPartitions] at hrun
  obtain ⟨parameter, st1, h1, h2⟩ := DecM.bind_ok hrun
  by_cases hesc : parameter = (1 <<< depth) - 1
  · rw [if_pos hesc] at h2
    cases h2
  · rw [if_neg hesc] at h2
    obtain ⟨vecMid, st2, h3, h4⟩ := DecM.bind_ok h2
    by_cases hp : p = 0
    · subst hp
      have hm0 : m = 0 := by omega
      subst hm0
      cases h4
      have hmid := riceSamples_ok_length _ h3
      simp only [if_pos rfl] at hmid
      simpa using hmid
    · have hfirst :
          (if p = 0 then sf.blockSize - predictorOrder
           else if (0 : Nat) ≠ 0 then sf.blockSize >>> p
           else (sf.blockSize >>> p) - predictorOrder) =
          (sf.blockSize >>> p) - predictorOrder := by
        simp [hp]
      rw [hfirst] at h3
      have hmid := riceSamples_ok_length _ h3
      have htail := residualPartitions_tail_length m (by omega : 1 ≤ 0 + 1) h4
      rw [if_neg hp] at htail
      have hD : 2 ^ p * (sf.blockSize >>> p) = sf.blockSize := by
        rw [Nat.shiftRight_eq_div_pow]
        exact Nat.mul_div_cancel' hdvd
      have hexp : m * (sf.blockSize >>> p) =
          2 ^ p * (sf.blockSize >>> p) - (sf.blockSize >>> p) := by
        have : m = 2 ^ p - 1 := by omega
        rw [this, Nat.sub_mul, one_mul]
      have hDle : sf.blockSize >>> p ≤ sf.blockSize := by
        have h1p : 1 ≤ 2 ^ p := Nat.pos_pow_of_pos p (by norm_num)
        calc sf.blockSize >>> p = 1 * (sf.blockSize >>> p) := (one_mul _).symm
          _ ≤ 2 ^ p * (sf.blockSize >>> p) := Nat.mul_le_mul_right _ h1p
          _ = sf.blockSize := hD
      rw [htail, hmid, hexp, hD]
      omega

/-- Witness for the amended C5: `block_size = 2`, `predictor_order = 1`,
partition order 1 — partition 0 holds 0 samples, partition 1 holds one
Rice-decoded sample. -/
theorem c5_residual_partition_totals_witness :
    residualPartitions ⟨.fixed 1, 8, 2⟩ 1 4 1 0 (1 <<< 1) [] (initState [0b00000000, 0b10000000]) =
      .ok [0]
        { source := [], queue := 0, queueCount := 7, crc8 := 0, crc16 := 0,
          computingCrc8 := false, computingCrc16 := false } ∧
    ([0] : List Int).length = ([] : List Int).length + (2 - 1) := by
  have hrun :
      residualPartitions ⟨.fixed 1, 8, 2⟩ 1 4 1 0 (1 <<< 1) []
        (initState [0b00000000, 0b10000000]) =
      .ok [0]
        { source := [], queue := 0, queueCount := 7, crc8 := 0, crc16 := 0,
          computingCrc8 := false, computingCrc16 := false } := by decide
  exact ⟨hrun,
    c5_residual_partition_totals ⟨.fixed 1, 8, 2⟩ 1 4 1 [] _ [0] _ hrun (by decide) (by decide)⟩

/-! ## The fixed-predictor restore recurrence (C7) -/

theorem getD_set_self {l : List Int} {i : Nat} {a : Int} (h : i < l.length) :
    (l.set i a).getD i 0 = a := by
  rw [List.getD_eq_getElem?_getD, List.getElem?_set_self h]
  rfl

theorem getD_set_ne {l : List Int} {i j : Nat} (h : i ≠ j) (a : Int) :
    (l.set i a).getD j 0 = l.getD j 0 := by
  rw [List.getD_eq_getElem?_getD, List.getElem?_set_ne h, ← List.getD_eq_getElem?_getD]

/-- `lpcSum` only inspects entries strictly below `i` (the predictor looks
back at `vec[i-1-j]` for `j < coefficients.length ≤ i`). -/
theorem lpcSum_congr (c : List Int) {v w : List Int} (i : Nat) (hci : c.length ≤ i)
    (h : ∀ t, t < i → v.getD t 0 = w.getD t 0) : lpcSum c v i = lpcSum c w i := by
  unfold lpcSum
  apply List.foldl_ext
  intro a j hj
  rw [List.mem_range] at hj
  rw [h (i - j - 1) (by omega)]

/-- Behaviour of the `restore_signals` loop run from index `i` for `k`
steps: length preserved, entries outside `[i, i+k)` untouched, and each
restored entry satisfies the in-place LPC recurrence against the restored
(earlier) entries. -/
theorem restoreLoop_spec (c : List Int) (s : Nat) :
    ∀ (k i : Nat) (v : List Int), c.length ≤ i → i + k ≤ v.length →
      (restoreLoop c s i k v).length = v.length ∧
      (∀ j, j < i → (restoreLoop c s i k v).getD j 0 = v.getD j 0) ∧
      (∀ j, i ≤ j → j < i + k →
        (restoreLoop c s i k v).getD j 0 =
          toI32 (v.getD j 0 + toI32 (asr (lpcSum c (restoreLoop c s i k v) j) s))) ∧
      (∀ j, i + k ≤ j → (restoreLoop c s i k v).getD j 0 = v.getD j 0) := by
  intro k
  induction k with
  | zero =>
      intro i v hci hlen
      exact ⟨rfl, fun j hj => rfl, fun j hj1 hj2 => absurd hj2 (by omega), fun j hj => rfl⟩
  | succ k ih =>
      intro i v hci hlen
      have hiv : i < v.length := by omega
      simp only [restoreLoop]
      set w := toI32 (v.getD i 0 + toI32 (asr (lpcSum c v i) s)) with hw
      have hstep : restoreStep c s v i = v.set i w := rfl
      rw [hstep]
      obtain ⟨ihlen, ihlow, ihmid, ihhigh⟩ :=
        ih (i + 1) (v.set i w) (by omega) (by rw [List.length_set]; omega)
      have hlow' : ∀ j, j < i →
          (restoreLoop c s (i + 1) k (v.set i w)).getD j 0 = v.getD j 0 := fun j hj => by
        rw [ihlow j (by omega), getD_set_ne (by omega) w]
      have hati : (restoreLoop c s (i + 1) k (v.set i w)).getD i 0 = w := by
        rw [ihlow i (by omega), getD_set_self hiv]
      refine ⟨by rw [ihlen, List.length_set], hlow', ?_, ?_⟩
      · intro j hj1 hj2
        rcases Nat.lt_or_ge i j with hij | hij
        · rw [ihmid j (by omega) (by omega), getD_set_ne (by omega) w]
        · have hji : j = i := by omega
          subst hji
          rw [hati, hw]
          have hsum : lpcSum c (restoreLoop c s (j + 1) k (v.set j w)) j = lpcSum c v j :=
            lpcSum_congr c j hci hlow'
          rw [hsum]
      · intro j hj
        rw [ihhigh j (by omega), getD_set_ne (by omega) w]

theorem restoreSignals_ok {sf : Subframe} {c : List Int} {sh : Int} {order : Nat}
    {v : List Int} {st : DecodeState} {vec' : List Int} {st' : DecodeState}
    (h : sf.restoreSignals c sh order v st = .ok vec' st') :
    c.length = order ∧ v.length = sf.blockSize ∧ 0 ≤ sh ∧ st' = st ∧
    vec' = restoreLoop c sh.toNat order (sf.blockSize - order) v := by
  simp only [Subframe.restoreSignals] at h
  by_cases hg : c.length ≠ order ∨ v.length ≠ sf.blockSize ∨ sh < 0
  · rw [if_pos hg] at h
    cases h
  · rw [if_neg hg] at h
    push_neg at hg
    injection h with h1 h2
    exact ⟨hg.1, hg.2.1, hg.2.2, h2.symm, h1.symm⟩

theorem obtainCoefficients_eq_none {order : Nat} (h : 5 ≤ order) :
    obtainCoefficients order = none := by
  match order, h with
  | n + 5, _ => rfl

theorem decodeFixed_ok_recurrence {sf : Subframe} {vec0 : List Int} {order : Nat}
    {st : DecodeState} {vec' : List Int} {st' : DecodeState} {coeffs : List Int}
    (hco : obtainCoefficients order = some coeffs)
    (hrun : sf.decodeFixed vec0 order st = .ok vec' st') :
    ∃ v st1, sf.warmupResiduals vec0 order st = .ok v st1 ∧ st' = st1 ∧
      coeffs.length = order ∧ v.length = sf.blockSize ∧ vec'.length = sf.blockSize ∧
      (∀ i, i < order → vec'.getD i 0 = v.getD i 0) ∧
      (∀ i, order ≤ i → i < sf.blockSize →
        vec'.getD i 0 = toI32 (v.getD i 0 + toI32 (asr (lpcSum coeffs vec' i) 0))) := by
  obtain ⟨v, st1, hwr, hrest⟩ := DecM.bind_ok hrun
  rw [hco] at hrest
  obtain ⟨hclen, hvlen, _, hst, hvec⟩ := restoreSignals_ok hrest
  have htn : (0 : Int).toNat = 0 := rfl
  rw [htn] at hvec
  by_cases horder : order ≤ sf.blockSize
  · obtain ⟨hlen, hlow, hmid, hhigh⟩ :=
      restoreLoop_spec coeffs 0 (sf.blockSize - order) order v (by omega) (by omega)
    refine ⟨v, st1, hwr, hst, hclen, hvlen, ?_, ?_, ?_⟩
    · rw [hvec, hlen, hvlen]
    · intro i hi
      rw [hvec]
      exact hlow i hi
    · intro i hi1 hi2
      rw [hvec]
      exact hmid i hi1 (by omega)
  · have hk0 : sf.blockSize - order = 0 := by omega
    rw [hk0] at hvec
    refine ⟨v, st1, hwr, hst, hclen, hvlen, ?_, ?_, ?_⟩
    · rw [hvec]
      exact hvlen
    · intro i hi
      rw [hvec]
      rfl
    · intro i hi1 hi2
      omega

/-- **C7**: for every `Fixed(order)` subframe with `order ∈ 0..=4`, decoding
restores each sample in place as `x[i] += Σ_j coeff[j]·x[i-1-j]` with the
coefficient table `{[], [1], [2,-1], [3,-3,1], [4,-6,4,-1]}` and shift 0,
the 64-bit accumulation being assigned back to 32 bits; for every parsed
`Fixed` order outside `0..=4`, decoding fails with
`FixedLPCCoefficientUnknown` (once its warm-up/residual prefix has been
read) and never succeeds. -/
theorem c7_fixed_prediction (sf : Subframe) (order : Nat) (vec0 : List Int)
    (st : DecodeState) :
    (order ≤ 4 →
      obtainCoefficients order =
        some ([[], [1], [2, -1], [3, -3, 1], [4, -6, 4, -1]].getD order []) ∧
      ∀ vec' st', sf.decodeFixed vec0 order st = .ok vec' st' →
        ∃ v st1, sf.warmupResiduals vec0 order st = .ok v st1 ∧ st' = st1 ∧
          v.length = sf.blockSize ∧ vec'.length = sf.blockSize ∧
          (∀ i, i < order → vec'.getD i 0 = v.getD i 0) ∧
          (∀ i, order ≤ i → i < sf.blockSize →
            vec'.getD i 0 =
              toI32 (v.getD i 0 +
                toI32 (asr (lpcSum
                  ([[], [1], [2, -1], [3, -3, 1], [4, -6, 4, -1]].getD order []) vec' i) 0)))) ∧
    (5 ≤ order →
      (∀ v1 st1, sf.warmupResiduals vec0 order st = .ok v1 st1 →
        sf.decodeFixed vec0 order st = .err .fixedLPCCoefficientUnknown) ∧
      ∀ vec' st', sf.decodeFixed vec0 order st ≠ .ok vec' st') := by
  constructor
  · intro hord
    have hco : obtainCoefficients order =
        some ([[], [1], [2, -1], [3, -3, 1], [4, -6, 4, -1]].getD order []) := by
      interval_cases order <;> rfl
    refine ⟨hco, fun vec' st' hrun => ?_⟩
    obtain ⟨v, st1, hwr, hst, _, hvlen, hveclen, hpre, hrec⟩ :=
      decodeFixed_ok_recurrence hco hrun
    exact ⟨v, st1, hwr, hst, hvlen, hveclen, hpre, hrec⟩
  · intro h5
    have hnone : obtainCoefficients order = none := obtainCoefficients_eq_none h5
    constructor
    · intro v1 st1 hwr
      simp only [Subframe.decodeFixed]
      rw [DecM.run_bind, hwr, hnone]
      rfl
    · intro vec' st' hrun
      obtain ⟨v, st1, hwr, hrest⟩ := DecM.bind_ok hrun
      rw [hnone] at hrest
      cases hrest

/-- Witness for C7 at a concrete `Fixed(1)` subframe: frame bps 4, block
size 1, warm-up sample `0b0101 = 5`, residual partition order 0 with zero
residual samples. -/
theorem c7_fixed_prediction_witness :
    ∃ v st1,
      (⟨.fixed 1, 4, 1⟩ : Subframe).warmupResiduals [] 1 (initState [0x50, 0x00]) =
        .ok v st1 ∧
      ({ source := [], queue := 0, queueCount := 2, crc8 := 0, crc16 := 0,
         computingCrc8 := false, computingCrc16 := false } : DecodeState) = st1 ∧
      v.length = (⟨.fixed 1, 4, 1⟩ : Subframe).blockSize ∧
      ([5] : List Int).length = (⟨.fixed 1, 4, 1⟩ : Subframe).blockSize ∧
      (∀ i, i < 1 → ([5] : List Int).getD i 0 = v.getD i 0) ∧
      (∀ i, 1 ≤ i → i < (⟨.fixed 1, 4, 1⟩ : Subframe).blockSize →
        ([5] : List Int).getD i 0 =
          toI32 (v.getD i 0 +
            toI32 (asr (lpcSum
              ([[], [1], [2, -1], [3, -3, 1], [4, -6, 4, -1]].getD 1 []) [5] i) 0))) := by
  have hrun : (⟨.fixed 1, 4, 1⟩ : Subframe).decodeFixed [] 1 (initState [0x50, 0x00]) =
      .ok [5]
        { source := [], queue := 0, queueCount := 2, crc8 := 0, crc16 := 0,
          computingCrc8 := false, computingCrc16 := false } := by decide
  exact ((c7_fixed_prediction ⟨.fixed 1, 4, 1⟩ 1 [] (initState [0x50, 0x00])).1
    (by norm_num)).2 [5] _ hrun

/-! ## MidSide reconstruction (C4) -/

/-- The per-sample MidSide reconstruction from `Frame::from_reader`:
`let s = *side; let m = (*mid * 2) | (s & 1); *mid = (m + s) / 2;
*side = (m - s) / 2` — the new mid is the left channel and the new side the
right.  `/` is Rust's truncating division (`Int.tdiv`); `|` and `&` are
two's-complement bitwise operations.  The `i32` wrap of the intermediate
`*mid * 2` is not modelled (no claim concerns it). -/
def midSideFix (mid side : Int) : Int × Int :=
  let s := side
  let m := Int.lor (mid * 2) (Int.land s 1)
  (Int.tdiv (m + s) 2, Int.tdiv (m - s) 2)

theorem nat_ldiff_zero (m : Nat) : Nat.ldiff m 0 = m := by
  apply Nat.eq_of_testBit_eq
  intro i
  rw [Nat.testBit_ldiff, Nat.zero_testBit]
  simp

theorem nat_ldiff_one_of_odd {m : Nat} (h : m % 2 = 1) : Nat.ldiff m 1 = m - 1 := by
  obtain ⟨j, hj⟩ : ∃ j, m = 2 * j + 1 := ⟨m / 2, by omega⟩
  subst hj
  apply Nat.eq_of_testBit_eq
  intro i
  rw [Nat.testBit_ldiff]
  cases i with
  | zero =>
      simp only [Nat.testBit_zero]
      have h1 : (2 * j + 1) % 2 = 1 := by omega
      have h2 : (2 * j + 1 - 1) % 2 = 0 := by omega
      rw [h1, h2]
      simp
  | succ i =>
      simp only [Nat.testBit_succ]
      have h1 : (2 * j + 1) / 2 = j := by omega
      have h2 : (2 * j + 1 - 1) / 2 = j := by omega
      have h4 : (1 : ℕ) / 2 = 0 := by norm_num
      rw [h1, h2, h4, Nat.zero_testBit]
      simp

theorem nat_ldiff_one_even {n : Nat} (h : n % 2 = 0) : Nat.ldiff 1 n = 1 := by
  apply Nat.eq_of_testBit_eq
  intro i
  rw [Nat.testBit_ldiff]
  cases i with
  | zero =>
      simp only [Nat.testBit_zero]
      rw [h]
      simp
  | succ i =>
      have h3 : Nat.testBit 1 (i + 1) = false := by
        rw [Nat.testBit_succ]
        have h4 : (1 : ℕ) / 2 = 0 := by norm_num
        rw [h4, Nat.zero_testBit]
      rw [h3]
      simp

theorem nat_ldiff_one_odd {n : Nat} (h : n % 2 = 1) : Nat.ldiff 1 n = 0 := by
  apply Nat.eq_of_testBit_eq
  intro i
  rw [Nat.testBit_ldiff, Nat.zero_testBit]
  cases i with
  | zero =>
      simp only [Nat.testBit_zero]
      rw [h]
      simp
  | succ i =>
      have h3 : Nat.testBit 1 (i + 1) = false := by
        rw [Nat.testBit_succ]
        have h4 : (1 : ℕ) / 2 = 0 := by norm_num
        rw [h4, Nat.zero_testBit]
      rw [h3]
      simp

/-- Two's-complement `x & 1` is the (nonnegative) parity of `x`. -/
theorem int_land_one (x : Int) : Int.land x 1 = x % 2 := by
  cases x with
  | ofNat n =>
      have h0 : Int.land (Int.ofNat n) 1 = Int.ofNat (n &&& 1) := rfl
      rw [h0, Nat.and_one_is_mod]
      simp only [Int.ofNat_eq_natCast]
      omega
  | negSucc n =>
      have h0 : Int.land (Int.negSucc n) 1 = ((Nat.ldiff 1 n : ℕ) : ℤ) := rfl
      rw [h0, Int.negSucc_eq]
      rcases Nat.mod_two_eq_zero_or_one n with h | h
      · rw [nat_ldiff_one_even h]
        omega
      · rw [nat_ldiff_one_odd h]
        omega

/-- Two's-complement or of an even number with a single bit is addition. -/
theorem int_lor_two_mul_add (k b : Int) (hb : b = 0 ∨ b = 1) :
    Int.lor (2 * k) b = 2 * k + b := by
  rcases hb with hb | hb <;> subst hb
  · -- b = 0
    cases k with
    | ofNat j =>
        have h2 : (2 : ℤ) * Int.ofNat j = Int.ofNat (2 * j) := by
          simp only [Int.ofNat_eq_natCast]
          omega
        rw [h2]
        have h0 : Int.lor (Int.ofNat (2 * j)) 0 = Int.ofNat (2 * j ||| 0) := rfl
        rw [h0, Nat.or_zero]
        simp only [Int.ofNat_eq_natCast]
        omega
    | negSucc j =>
        have h2 : 2 * Int.negSucc j = Int.negSucc (2 * j + 1) := by
          rw [Int.negSucc_eq, Int.negSucc_eq]
          push_cast
          ring
        rw [h2]
        have h0 : Int.lor (Int.negSucc (2 * j + 1)) 0 =
            Int.negSucc (Nat.ldiff (2 * j + 1) 0) := rfl
        rw [h0, nat_ldiff_zero]
        omega
  · -- b = 1
    cases k with
    | ofNat j =>
        have h2 : (2 : ℤ) * Int.ofNat j = Int.ofNat (2 * j) := by
          simp only [Int.ofNat_eq_natCast]
          omega
        rw [h2]
        have h0 : Int.lor (Int.ofNat (2 * j)) 1 = Int.ofNat (2 * j ||| 1) := rfl
        have h1 : 2 * j ||| 1 = 2 * j + 1 := by
          have hadd := lor_mul_two_pow_eq_add j 1 1 (by norm_num)
          simpa [Nat.mul_comm] using hadd
        rw [h0, h1]
        simp only [Int.ofNat_eq_natCast]
        omega
    | negSucc j =>
        have h2 : 2 * Int.negSucc j = Int.negSucc (2 * j + 1) := by
          rw [Int.negSucc_eq, Int.negSucc_eq]
          push_cast
          ring
        rw [h2]
        have h0 : Int.lor (Int.negSucc (2 * j + 1)) 1 =
            Int.negSucc (Nat.ldiff (2 * j + 1) 1) := rfl
        have h1 : Nat.ldiff (2 * j + 1) 1 = 2 * j := by
          rw [nat_ldiff_one_of_odd (by omega)]
          omega
        rw [h0, h1, Int.negSucc_eq, Int.negSucc_eq]
        push_cast
        ring

/-- **C4** MidSide round-trip: for every pair `(L, R)` of signed integers,
encoding `M = (L+R) >> 1`, `S = L - R` and then applying the decoder's
MidSide reconstruction (`m = (M << 1) | (S & 1); left = (m+S)/2;
right = (m-S)/2`, as in `Frame::from_reader`) returns exactly `(L, R)`. -/
theorem c4_midside_roundtrip (L R : Int) :
    midSideFix ((L + R) >>> (1 : ℕ)) (L - R) = (L, R) := by
  have hM : (L + R) >>> (1 : ℕ) = (L + R) / 2 := by
    rw [Int.shiftRight_eq_div_pow]
    norm_num
  have hland : Int.land (L - R) 1 = (L - R) % 2 := int_land_one _
  have hb : (L - R) % 2 = 0 ∨ (L - R) % 2 = 1 := Int.emod_two_eq _
  have hm : Int.lor ((L + R) >>> (1 : ℕ) * 2) (Int.land (L - R) 1) = L + R := by
    rw [hM, hland, mul_comm, int_lor_two_mul_add _ _ hb]
    have hdm : 2 * ((L + R) / 2) + (L + R) % 2 = L + R := Int.ediv_add_emod (L + R) 2
    omega
  simp only [midSideFix]
  rw [hm]
  have h1 : L + R + (L - R) = 2 * L := by ring
  have h2 : L + R - (L - R) = 2 * R := by ring
  rw [h1, h2, Int.mul_tdiv_cancel_left _ (by norm_num), Int.mul_tdiv_cancel_left _ (by norm_num)]

/-- Witness for C9 at `n = 3`, `u = 0b110` (the first case of the
`frame.rs` unit test `test_sign_extend`). -/
theorem c9_sign_extend_witness :
    sign_extend 6 3 = (6 : Int) - (((6 >>> (3 - 1)) <<< 3 : Nat) : Int) :=
  c9_sign_extend 3 6 (by norm_num) (by norm_num) (by norm_num)

/-! ## Metadata (`metadata.rs`) and frame headers (`frame.rs`) -/

/-- `metadata.rs` `StreamInfo`. -/
structure StreamInfo where
  minBlockSize : Nat
  maxBlockSize : Nat
  minFrameSize : Nat
  maxFrameSize : Nat
  sampleRate : Nat
  numberOfChannels : Nat
  bitsPerSample : Nat
  totalSamples : Nat
  signature : Nat
  deriving DecidableEq, Repr

/-- `metadata.rs` `StreamInfo::from_reader`. -/
def StreamInfo.fromReader : DecM StreamInfo := do
  let minBlockSize ← readU16
  let maxBlockSize ← readU16
  let minFrameSize ← readU32Bits 24
  let maxFrameSize ← readU32Bits 24
  let sampleRate ← readU32Bits 20
  let channels ← readU8Bits 3
  let bitsPerSample ← readU8Bits 5
  let totalSamples ← readU64Bits 36
  let signature ← readU128
  pure { minBlockSize := minBlockSize, maxBlockSize := maxBlockSize,
         minFrameSize := minFrameSize, maxFrameSize := maxFrameSize,
         sampleRate := sampleRate, numberOfChannels := channels + 1,
         bitsPerSample := bitsPerSample + 1, totalSamples := totalSamples,
         signature := signature }

/-- `frame.rs` `FrameHeader`. -/
structure FrameHeader where
  sampleSize : Nat
  blockSize : Nat
  channelAssignment : ChannelAssignment
  deriving DecidableEq, Repr

/-- The UTF-8-coded frame/sample-number skip loop of
`FrameHeader::from_reader`:
`while v1 >= 0xC0 { read_u8()?; v1 = (v1 << 1) & 0xff }`.
While the loop continues, `v1` is at least `0xC0` and strictly decreases
(staying below 256), so at most 8 iterations occur; the caller's fuel of 9
is never exhausted. -/
def skipUtf8Go : Nat → Nat → DecM Unit
  | 0, _ => DecM.abort
  | fuel + 1, v1 => fun st =>
      if 0xC0 ≤ v1 then
        match readU8 st with
        | .ok _ st' => skipUtf8Go fuel ((v1 <<< 1) &&& 0xff) st'
        | .err e => .err e
        | .aborted => .aborted
      else .ok () st

/-- Rust's `Option::ok_or_else(..)?`: unwrap or fail with the error. -/
def okOrElse {α : Type} (o : Option α) (e : ErrorCode) : DecM α := fun st =>
  match o with
  | none => .err e
  | some a => .ok a st

/-- `frame.rs` `FrameHeader::from_reader`, after the sync code has been read
and validated: the remaining parameter fields, the UTF-8-coded number skip,
the optional variable block-size/sample-rate fields, the CRC-8 check, and
the code-to-value translations. -/
def frameHeaderRest (streamInfo : StreamInfo) : DecM (Option FrameHeader) := do
  let _zero ← readBool
  let _blockingStrategy ← readU8Bits 1
  let blockSizeBits ← readU8Bits 4
  let sampleRateBits ← readU8Bits 4
  let channelBits ← readU8Bits 4
  let sampleSizeBits ← readU8Bits 3
  let _reserved ← readBool
  -- skip the UTF-8 coded frame/sample number
  let v1 ← readU8
  let _ ← skipUtf8Go 9 v1
  -- variable block size
  let variableBlockSize ← (match blockSizeBits with
    | 0b0110 => do
        let x ← readU8
        pure (some (x + 1))
    | 0b0111 => do
        let x ← readU16
        pure (some (x + 1))
    | _ => pure none : DecM (Option Nat))
  -- variable sample rate (read, discarded)
  let _ ← (match sampleRateBits with
    | 0b1100 => readU8
    | 0b1101 => readU16
    | 0b1110 => readU16
    | _ => pure 0 : DecM Nat)
  -- CRC-8 validation
  let actualCrc8 ← computeCrc8End
  let expectedCrc8 ← readU8
  if actualCrc8 ≠ expectedCrc8 then
    DecM.fail .frameHeaderCrcMismatch
  else
    let sampleSize : Option Nat :=
      match sampleSizeBits with
      | 0b000 => some streamInfo.bitsPerSample
      | 0b001 => some 8
      | 0b010 => some 12
      | 0b100 => some 16
      | 0b101 => some 20
      | 0b110 => some 24
      | _ => none
    let blockSize : Option Nat :=
      if blockSizeBits = 0b0001 then some 192
      else if 0b0010 ≤ blockSizeBits ∧ blockSizeBits ≤ 0b0101 then
        some (576 * (1 <<< (blockSizeBits - 2)))
      else if blockSizeBits = 0b0110 then variableBlockSize
      else if blockSizeBits = 0b0111 then variableBlockSize
      else if 0b1000 ≤ blockSizeBits ∧ blockSizeBits ≤ 0b1111 then
        some (256 * (1 <<< (blockSizeBits - 8)))
      else none
    do
      let ss ← okOrElse sampleSize .frameSampleSizeUnknown
      let bs ← okOrElse blockSize .frameBlockSizeUnknown
      let ca ← okOrElse (ChannelAssignment.parse channelBits) .frameChannelAssignmentUnknown
      pure (some { sampleSize := ss, blockSize := bs, channelAssignment := ca })

/-- `frame.rs` `FrameHeader::from_reader`: open the CRC-8 region, read the
14-bit sync code — `Ok(None)` if the source reports `UnexpectedEof` there,
`FrameOutOfSync` if the code mismatches — then parse the rest. -/
def FrameHeader.fromReader (streamInfo : StreamInfo) : DecM (Option FrameHeader) := fun st =>
  match computeCrc8Begin st with
  | .ok _ st1 =>
      match readU16Bits 14 st1 with
      | .ok syncCode st2 =>
          if syncCode ≠ 0x3ffe then .err .frameOutOfSync
          else frameHeaderRest streamInfo st2
      | .err e => if e = .ioEof then .ok none st1 else .err e
      | .aborted => .aborted
  | .err e => .err e
  | .aborted => .aborted

theorem frameHeaderRest_ok_isSome {info : StreamInfo} {st : DecodeState}
    {a : Option FrameHeader} {st' : DecodeState}
    (h : frameHeaderRest info st = .ok a st') : ∃ hdr, a = some hdr := by
  simp only [frameHeaderRest] at h
  obtain ⟨x1, st1, _, h⟩ := DecM.bind_ok h
  obtain ⟨x2, st2, _, h⟩ := DecM.bind_ok h
  obtain ⟨x3, st3, _, h⟩ := DecM.bind_ok h
  obtain ⟨x4, st4, _, h⟩ := DecM.bind_ok h
  obtain ⟨x5, st5, _, h⟩ := DecM.bind_ok h
  obtain ⟨x6, st6, _, h⟩ := DecM.bind_ok h
  obtain ⟨x7, st7, _, h⟩ := DecM.bind_ok h
  obtain ⟨x8, st8, _, h⟩ := DecM.bind_ok h
  obtain ⟨x9, st9, _, h⟩ := DecM.bind_ok h
  obtain ⟨x10, st10, _, h⟩ := DecM.bind_ok h
  obtain ⟨x11, st11, _, h⟩ := DecM.bind_ok h
  obtain ⟨x12, st12, _, h⟩ := DecM.bind_ok h
  obtain ⟨x13, st13, _, h⟩ := DecM.bind_ok h
  by_cases hcrc : x12 ≠ x13
  · rw [if_pos hcrc] at h
    exact absurd h (by simp [DecM.fail])
  · rw [if_neg hcrc] at h
    obtain ⟨ss, st14, _, h⟩ := DecM.bind_ok h
    obtain ⟨bs, st15, _, h⟩ := DecM.bind_ok h
    obtain ⟨ca, st16, _, h⟩ := DecM.bind_ok h
    rw [DecM.run_pure] at h
    injection h with h1 h2
    exact ⟨_, h1.symm⟩

theorem readU16Bits_ok_of_readValue {n : Nat} {st : DecodeState} {v : Nat}
    {st' : DecodeState} (hn : n ≤ 16) (h : readValue n st = .ok v st') :
    readU16Bits n st = .ok (v &&& 0xffff) st' := by
  show (if n ≤ 16 then _ else DRes.aborted) = _
  rw [if_pos hn, DecM.run_bind, h]
  rfl

/-- Counterexample to **C6** as stated: a source holding a single byte at
the sync position.  `read_exact` for the two sync bytes reports
`UnexpectedEof` even though one byte of the sync code is available to be
consumed, and `FrameHeader::from_reader` maps that to the soft `Ok(None)`
— clean termination, not an error. -/
theorem c6_counterexample :
    FrameHeader.fromReader ⟨0, 0, 0, 0, 0, 1, 8, 0, 0⟩ (initState [0xff]) =
      .ok none
        { source := [0xff], queue := 0, queueCount := 0, crc8 := 0, crc16 := 0,
          computingCrc8 := true, computingCrc16 := false } := rfl

/-- **C6** (amended): with a byte-aligned reader, `FrameHeader::from_reader`
returns the soft "no more frames" outcome exactly when fewer than two whole
bytes remain at the position where the 14-bit sync code would start — the
two-byte `read_exact` reports `UnexpectedEof` both at a clean EOF and when
one stray byte remains, and the code maps exactly that error to `Ok(None)`;
end-of-stream in any later header field surfaces as an error. -/
theorem c6_none_iff_lt_two_bytes (info : StreamInfo) (st : DecodeState)
    (halign : st.queueCount = 0) :
    (∃ st', FrameHeader.fromReader info st = .ok none st') ↔ st.source.length < 2 := by
  have hbegin : computeCrc8Begin st =
      .ok () { st with computingCrc8 := true, crc8 := 0 } := rfl
  set st1 : DecodeState := { st with computingCrc8 := true, crc8 := 0 } with hst1
  have h1align : st1.queueCount = 0 := halign
  have h1len : st1.source.length = st.source.length := rfl
  constructor
  · rintro ⟨st', h⟩
    by_contra hlen
    push_neg at hlen
    -- with at least two bytes the sync read succeeds
    have hc : st1.queueCount < 14 := by omega
    have hle : (14 - st1.queueCount - 1) / 8 + 1 ≤ st1.source.length := by
      rw [h1len]
      omega
    have hval := readValue_fetch (show (14 : Nat) ≤ 64 by norm_num) hc hle
    obtain ⟨v, st2, h16⟩ : ∃ v st2, readU16Bits 14 st1 = DRes.ok v st2 :=
      ⟨_, _, readU16Bits_ok_of_readValue (by norm_num : (14 : Nat) ≤ 16) hval⟩
    simp only [FrameHeader.fromReader, hbegin, h16] at h
    by_cases hsync : v ≠ 0x3ffe
    · rw [if_pos hsync] at h
      cases h
    · rw [if_neg hsync] at h
      obtain ⟨hdr, hsome⟩ := frameHeaderRest_ok_isSome h
      cases hsome
  · intro hlen
    refine ⟨st1, ?_⟩
    have hval : readValue 14 st1 = .err .ioEof := by
      simp only [readValue, readExact]
      rw [if_pos (by norm_num : (14 : Nat) ≤ 64), if_pos (by omega : st1.queueCount < 14)]
      rw [if_neg (by rw [h1align, h1len]; omega)]
    have h16 : readU16Bits 14 st1 = .err .ioEof := by
      show (if (14 : Nat) ≤ 16 then _ else DRes.aborted) = _
      rw [if_pos (by norm_num : (14 : Nat) ≤ 16), DecM.run_bind, hval]
    simp only [FrameHeader.fromReader, hbegin, h16]
    rfl

/-- Witness for the amended C6 at the empty source: a clean EOF at the sync
position yields the soft "no more frames" outcome. -/
theorem c6_none_iff_lt_two_bytes_witness :
    ∃ st', FrameHeader.fromReader ⟨0, 0, 0, 0, 0, 1, 8, 0, 0⟩ (initState []) = .ok none st' :=
  (c6_none_iff_lt_two_bytes ⟨0, 0, 0, 0, 0, 1, 8, 0, 0⟩ (initState []) rfl).mpr (by simp [initState])

/-! ## Frames (`frame.rs`), metadata blocks (`metadata.rs`, `bitvec.rs`)
and the stream driver (`stream.rs`) -/

/-- `frame.rs` `Frame`: the parsed header together with the per-channel
sample buffers that decoding filled (the Rust struct borrows the caller's
buffer vector; the embedding returns it). -/
structure Frame where
  header : FrameHeader
  blocks : List (List Int)
  deriving Repr

/-- The `for i in 0..num_channels` loop of the `Independent` branch of
`Frame::from_reader` (fuel counts the remaining channels). -/
def decodeChannels (sampleSize blockSize : Nat) :
    Nat → Nat → List (List Int) → DecM (List (List Int))
  | _, 0, blocks => pure blocks
  | i, fuel + 1, blocks =>
      match blocks[i]? with
      | none => DecM.fail .frameBufferUnallocated
      | some block => do
          let block' ← decodeOneSubframe sampleSize blockSize block
          decodeChannels sampleSize blockSize (i + 1) fuel (blocks.set i block')

/-- The channel-assignment dispatch of `Frame::from_reader`: decode each
subframe into its channel buffer and apply the inter-channel correlation.
The stereo branches need two buffers (`split_first_mut` and `first_mut`
both reporting `FrameBufferUnallocated` otherwise).  The correlation
arithmetic is on unbounded integers (`i32` wrapping is not modelled; no
claim concerns it). -/
def decodeFrameChannels (header : FrameHeader) (blocks : List (List Int)) :
    DecM (List (List Int)) :=
  match header.channelAssignment with
  | .independent numChannels =>
      decodeChannels header.sampleSize header.blockSize 0 numChannels blocks
  | .leftSideStereo =>
      match blocks with
      | leftVec :: sideVec :: rest => do
          let left ← decodeOneSubframe header.sampleSize header.blockSize leftVec
          let side ← decodeOneSubframe (header.sampleSize + 1) header.blockSize sideVec
          -- correlate: *side = *left - *side
          pure (left :: left.zipWith (fun l s => l - s) side :: rest)
      | _ => DecM.fail .frameBufferUnallocated
  | .sideRightStereo =>
      match blocks with
      | sideVec :: rightVec :: rest => do
          let side ← decodeOneSubframe (header.sampleSize + 1) header.blockSize sideVec
          let right ← decodeOneSubframe header.sampleSize header.blockSize rightVec
          -- correlate: *side += *right
          pure (side.zipWith (fun sv rv => sv + rv) right :: right :: rest)
      | _ => DecM.fail .frameBufferUnallocated
  | .midSideStereo =>
      match blocks with
      | midVec :: sideVec :: rest => do
          let mid ← decodeOneSubframe header.sampleSize header.blockSize midVec
          let side ← decodeOneSubframe (header.sampleSize + 1) header.blockSize sideVec
          -- correlate via the in-place MidSide reconstruction
          let pairs := mid.zipWith midSideFix side
          pure (pairs.map Prod.fst :: pairs.map Prod.snd :: rest)
      | _ => DecM.fail .frameBufferUnallocated

/-- `frame.rs` `Frame::from_reader`: open the CRC-16 region, parse the
header (soft end on `None`), decode all channels, byte-align, close the
CRC-16 region, and compare with the declared CRC-16. -/
def Frame.fromReader (streamInfo : StreamInfo) (blocks : List (List Int)) :
    DecM (Option Frame) := do
  let _ ← computeCrc16Begin
  match ← FrameHeader.fromReader streamInfo with
  | none => do
      -- reached the end of file
      let _ ← computeCrc16End
      pure none
  | some header => do
      let blocks' ← decodeFrameChannels header blocks
      -- zero-padding to byte alignment
      let _ ← alignToByte
      -- verify crc
      let actualCrc16 ← computeCrc16End
      let expectedCrc16 ← readU16
      if actualCrc16 ≠ expectedCrc16 then
        DecM.fail .frameCrcMismatch
      else
        pure (some { header := header, blocks := blocks' })

/-- `metadata.rs` `MetadataType`. -/
inductive MetadataType where
  | streamInfo
  | padding
  | application
  | seektable
  | vorbisComment
  | cuesheet
  | picture
  | reserved
  | invalid
  deriving DecidableEq, Repr

/-- `metadata.rs` `From<u8> for MetadataType`. -/
def MetadataType.fromByte (u : Nat) : MetadataType :=
  if u = 0 then .streamInfo
  else if u = 1 then .padding
  else if u = 2 then .application
  else if u = 3 then .seektable
  else if u = 4 then .vorbisComment
  else if u = 5 then .cuesheet
  else if u = 6 then .picture
  else if 7 ≤ u ∧ u ≤ 126 then .reserved
  else .invalid

/-- `metadata.rs` `MetadataHeader`. -/
structure MetadataHeader where
  last : Bool
  type : MetadataType
  lengthInBytes : Nat
  deriving DecidableEq, Repr

/-- `metadata.rs` `MetadataHeader::from_reader`. -/
def MetadataHeader.fromReader : DecM MetadataHeader := do
  let last ← readBool
  let ty ← readU8Bits 7
  let length ← readU32Bits 24
  pure { last := last, type := MetadataType.fromByte ty, lengthInBytes := length }

/-- `bitvec.rs` `BitvecBlock`. -/
inductive BitvecBlock where
  | bytes (v : List Nat)
  | bits (w : Nat) (q : Nat)
  deriving DecidableEq, Repr

/-- `bitvec.rs` `Bitvec`.  The Rust code pushes, pops and mutates at the END
of its `blocks` vector; the embedding stores the blocks in reverse order
(head = most recently pushed block) so `last_mut`/`pop`/`push` become head
operations. -/
structure Bitvec where
  revBlocks : List BitvecBlock
  deriving DecidableEq, Repr

/-- `bitvec.rs` `Bitvec::new`. -/
def Bitvec.new : Bitvec := ⟨[]⟩

/-- `bitvec.rs` `Bitvec::write_bits`: the `u8` shifts wrap modulo 256
(modelled by the `&&& 0xff` masks). -/
def Bitvec.writeBits (self : Bitvec) (u : Nat) (n : Nat) : Bitvec :=
  if n = 0 then self
  else
    match n, self.revBlocks with
    | 8, .bytes v :: rest => ⟨.bytes (v ++ [u]) :: rest⟩
    | 8, [] => ⟨[.bytes [u]]⟩
    | _, .bits w q :: rest =>
        if n + q < 8 then
          -- Shrink
          ⟨.bits (((w <<< n) ||| (u &&& ((1 <<< n) - 1))) &&& 0xff) (n + q) :: rest⟩
        else if n + q = 8 then
          -- Shrink Fit
          let v := ((w <<< n) ||| (u &&& ((1 <<< n) - 1))) &&& 0xff
          match rest with
          | .bytes vec :: rest2 => ⟨.bytes (vec ++ [v]) :: rest2⟩
          | _ => ⟨.bytes [v] :: rest⟩
        else
          -- Shrink Overflow
          let fill := (8 - q) &&& 7
          let overflow := (n + q) &&& 7
          let msb := ((w <<< fill) ||| (u >>> overflow)) &&& 0xff
          let lsb := u &&& ((1 <<< overflow) - 1)
          match rest with
          | .bytes vec :: rest2 => ⟨.bits lsb overflow :: .bytes (vec ++ [msb]) :: rest2⟩
          | _ => ⟨.bits lsb overflow :: .bytes [msb] :: rest⟩
    | _, _ =>
        -- Append
        ⟨.bits u n :: self.revBlocks⟩

/-- `bitvec.rs` `Bitvec::write_bytes`: move `n` source bytes into the
trailing `Bytes` block (or a fresh one). -/
def Bitvec.writeBytes (self : Bitvec) (n : Nat) : DecM Bitvec := fun st =>
  if n = 0 then .ok self st
  else
    match readExact n st with
    | .ok bs st' =>
        match self.revBlocks with
        | .bytes vec :: rest => .ok ⟨.bytes (vec ++ bs) :: rest⟩ st'
        | _ => .ok ⟨.bytes bs :: self.revBlocks⟩ st'
    | .err e => .err e
    | .aborted => .aborted

/-- `bits.rs` `BitReader::read_bitvec`. -/
def readBitvec (vec : Bitvec) (n : Nat) : DecM Bitvec := fun st =>
  let queue := st.queue
  if st.queueCount < n then
    let nBits := n - st.queueCount
    let nBytes := (nBits - 1) / 8 + 1
    -- flush the existing bits
    let vec1 := vec.writeBits (queue &&& 0xff) st.queueCount
    -- extend contiguous bytes
    match vec1.writeBytes (nBytes - 1) st with
    | .ok vec2 st1 =>
        -- truncate the last byte if necessary
        match readExact 1 st1 with
        | .ok bs st2 =>
            let v := bs.headD 0
            let remaining := (8 - (nBits &&& 7)) &&& 7
            let vec3 := vec2.writeBits (v >>> remaining) (8 - remaining)
            -- reconstruct cache
            .ok vec3 { st2 with queue := v &&& ((1 <<< remaining) - 1), queueCount := remaining }
        | .err e => .err e
        | .aborted => .aborted
    | .err e => .err e
    | .aborted => .aborted
  else
    -- use internal cache
    let remaining := st.queueCount - n
    .ok (vec.writeBits ((queue >>> remaining) &&& 0xff) n)
      { st with queue := queue &&& ((1 <<< remaining) - 1), queueCount := remaining }

/-- `metadata.rs` `MetadataHeader::skip_body`. -/
def MetadataHeader.skipBody (self : MetadataHeader) : DecM Unit := do
  let _ ← readBitvec Bitvec.new (self.lengthInBytes * 8)
  pure ()

/-- The metadata-chain skip loop of `Stream::new`
(`loop { let header = MetadataHeader::from_reader(..)?;
header.skip_body(..)?; if header.last { break } }`).  Each iteration reads
at least the 32 header bits, so a fuel above the reader's bit count is
never exhausted; the fuel makes the recursion structural. -/
def skipChainGo : Nat → DecM Unit
  | 0 => DecM.abort
  | fuel + 1 => do
      let header ← MetadataHeader.fromReader
      let _ ← header.skipBody
      if header.last then pure () else skipChainGo fuel

/-- `stream.rs` `Stream::new`: check the magic, read the first metadata
block header, parse the following body as `StreamInfo` (the declared type
of that first block is never examined), then skip the rest of the chain.
The returned `StreamInfo` is the `Stream` struct's only field. -/
def Stream.new : DecM StreamInfo := do
  let magic ← readU32
  if magic ≠ 0x664c6143 then
    DecM.fail .wrongMagic
  else do
    let header ← MetadataHeader.fromReader
    let streamInfo ← StreamInfo.fromReader
    let _ ← (if ¬ header.last then (fun st => skipChainGo (meas st + 1) st) else pure () :
      DecM Unit)
    pure streamInfo

/-! ## Error-code propagation: which error codes each decoding step can
raise -/

theorem DecM.bind_err {α β : Type} {x : DecM α} {f : α → DecM β} {st : DecodeState}
    {e : ErrorCode} (h : (x >>= f) st = .err e) :
    x st = .err e ∨ ∃ a st₁, x st = .ok a st₁ ∧ f a st₁ = .err e := by
  rw [DecM.run_bind] at h
  rcases hx : x st with ⟨a, st₁⟩ | e1 | _ <;> rw [hx] at h
  · exact Or.inr ⟨a, st₁, rfl, h⟩
  · injection h with h1
    exact Or.inl (by rw [h1])
  · exact DRes.noConfusion h

/-- The decoding step `f` never raises the error code `e`. -/
def NeverErr {α : Type} (e : ErrorCode) (f : DecM α) : Prop :=
  ∀ st, f st ≠ .err e

theorem neverErr_bind {α β : Type} {e : ErrorCode} {x : DecM α} {f : α → DecM β}
    (hx : NeverErr e x) (hf : ∀ a, NeverErr e (f a)) : NeverErr e (x >>= f) := by
  intro st h
  rcases DecM.bind_err h with h1 | ⟨a, st1, _, h2⟩
  · exact hx st h1
  · exact hf a st1 h2

theorem neverErr_pure {α : Type} (e : ErrorCode) (a : α) :
    NeverErr e (pure a : DecM α) := by
  intro st h
  rw [DecM.run_pure] at h
  exact DRes.noConfusion h

theorem neverErr_fail {α : Type} {e e1 : ErrorCode} (hne : e ≠ e1) :
    NeverErr e (DecM.fail e1 : DecM α) := by
  intro st h
  injection h with h1
  exact hne h1.symm

theorem neverErr_abort {α : Type} (e : ErrorCode) : NeverErr e (DecM.abort : DecM α) :=
  fun _ h => DRes.noConfusion h

theorem neverErr_ite {α : Type} {e : ErrorCode} (c : Prop) [Decidable c] {t f : DecM α}
    (ht : NeverErr e t) (hf : NeverErr e f) : NeverErr e (if c then t else f) := by
  intro st
  by_cases hc : c
  · rw [if_pos hc]
    exact ht st
  · rw [if_neg hc]
    exact hf st

theorem readExact_err {k : Nat} {st : DecodeState} {e : ErrorCode}
    (h : readExact k st = .err e) : e = .ioEof := by
  simp only [readExact] at h
  by_cases hk : k ≤ st.source.length
  · rw [if_pos hk] at h
    exact DRes.noConfusion h
  · rw [if_neg hk] at h
    injection h with h1
    exact h1.symm

theorem neverErr_readExact {e : ErrorCode} (he : e ≠ .ioEof) (k : Nat) :
    NeverErr e (readExact k) :=
  fun _ h => he (readExact_err h)

theorem neverErr_readValue {e : ErrorCode} (he : e ≠ .ioEof) (n : Nat) :
    NeverErr e (readValue n) := by
  intro st h
  simp only [readValue] at h
  by_cases hn : n ≤ 64
  · rw [if_pos hn] at h
    by_cases hc : st.queueCount < n
    · rw [if_pos hc] at h
      rcases hre : readExact ((n - st.queueCount - 1) / 8 + 1) st with ⟨bytes, st1⟩ | e1 | _ <;>
        rw [hre] at h
      · exact DRes.noConfusion h
      · injection h with h1
        exact he (h1 ▸ readExact_err hre)
      · exact DRes.noConfusion h
    · rw [if_neg hc] at h
      exact DRes.noConfusion h
  · rw [if_neg hn] at h
    exact DRes.noConfusion h

theorem neverErr_readBool {e : ErrorCode} (he : e ≠ .ioEof) : NeverErr e readBool :=
  neverErr_bind (neverErr_readValue he 1) (fun _ => neverErr_pure e _)

theorem neverErr_readU8Bits {e : ErrorCode} (he : e ≠ .ioEof) (n : Nat) :
    NeverErr e (readU8Bits n) := by
  intro st h
  simp only [readU8Bits] at h
  by_cases hn : n ≤ 8
  · rw [if_pos hn] at h
    exact neverErr_bind (neverErr_readValue he n) (fun _ => neverErr_pure e _) st h
  · rw [if_neg hn] at h
    exact DRes.noConfusion h

theorem neverErr_readU8 {e : ErrorCode} (he : e ≠ .ioEof) : NeverErr e readU8 :=
  neverErr_bind (neverErr_readValue he 8) (fun _ => neverErr_pure e _)

theorem neverErr_readU16Bits {e : ErrorCode} (he : e ≠ .ioEof) (n : Nat) :
    NeverErr e (readU16Bits n) := by
  intro st h
  simp only [readU16Bits] at h
  by_cases hn : n ≤ 16
  · rw [if_pos hn] at h
    exact neverErr_bind (neverErr_readValue he n) (fun _ => neverErr_pure e _) st h
  · rw [if_neg hn] at h
    exact DRes.noConfusion h

theorem neverErr_readU16 {e : ErrorCode} (he : e ≠ .ioEof) : NeverErr e readU16 :=
  neverErr_bind (neverErr_readValue he 16) (fun _ => neverErr_pure e _)

theorem neverErr_readU32Bits {e : ErrorCode} (he : e ≠ .ioEof) (n : Nat) :
    NeverErr e (readU32Bits n) := by
  intro st h
  simp only [readU32Bits] at h
  by_cases hn : n ≤ 32
  · rw [if_pos hn] at h
    exact neverErr_bind (neverErr_readValue he n) (fun _ => neverErr_pure e _) st h
  · rw [if_neg hn] at h
    exact DRes.noConfusion h

theorem neverErr_readU32 {e : ErrorCode} (he : e ≠ .ioEof) : NeverErr e readU32 :=
  neverErr_bind (neverErr_readValue he 32) (fun _ => neverErr_pure e _)

theorem neverErr_readU64Bits {e : ErrorCode} (he : e ≠ .ioEof) (n : Nat) :
    NeverErr e (readU64Bits n) := by
  intro st h
  simp only [readU64Bits] at h
  by_cases hn : n ≤ 64
  · rw [if_pos hn] at h
    exact neverErr_readValue he n st h
  · rw [if_neg hn] at h
    exact DRes.noConfusion h

theorem neverErr_readU128 {e : ErrorCode} (he : e ≠ .ioEof) : NeverErr e readU128 :=
  neverErr_bind (neverErr_readValue he 64) (fun _ =>
    neverErr_bind (neverErr_readValue he 64) (fun _ => neverErr_pure e _))

theorem neverErr_alignToByte (e : ErrorCode) : NeverErr e alignToByte :=
  fun _ h => DRes.noConfusion h

theorem neverErr_computeCrc8Begin (e : ErrorCode) : NeverErr e computeCrc8Begin :=
  fun _ h => DRes.noConfusion h

theorem neverErr_computeCrc8End (e : ErrorCode) : NeverErr e computeCrc8End :=
  fun _ h => DRes.noConfusion h

theorem neverErr_computeCrc16Begin (e : ErrorCode) : NeverErr e computeCrc16Begin :=
  fun _ h => DRes.noConfusion h

theorem neverErr_computeCrc16End (e : ErrorCode) : NeverErr e computeCrc16End :=
  fun _ h => DRes.noConfusion h

theorem neverErr_okOrElse {α : Type} {e e1 : ErrorCode} (hne : e ≠ e1) (o : Option α) :
    NeverErr e (okOrElse o e1) := by
  intro st h
  simp only [okOrElse] at h
  cases o with
  | none =>
      injection h with h1
      exact hne h1.symm
  | some a => exact DRes.noConfusion h

theorem neverErr_readUnaryGo {e : ErrorCode} (he : e ≠ .ioEof) (fuel : Nat) :
    ∀ st, readUnaryGo fuel st ≠ .err e := by
  induction fuel with
  | zero => exact fun _ h => DRes.noConfusion h
  | succ fuel ih =>
      intro st h
      simp only [readUnaryGo] at h
      split at h
      · exact DRes.noConfusion h
      · next st1 hb =>
          split at h
          · exact DRes.noConfusion h
          · next e2 hr =>
              injection h with h1
              exact ih st1 (h1 ▸ hr)
          · exact DRes.noConfusion h
      · next e1 hb =>
          injection h with h1
          exact neverErr_readBool he st (h1 ▸ hb)
      · exact DRes.noConfusion h

theorem neverErr_readUnary {e : ErrorCode} (he : e ≠ .ioEof) : NeverErr e readUnary := by
  intro st h
  exact neverErr_readUnaryGo he (meas st + 1) st h

theorem neverErr_decodeRice {e : ErrorCode} (he : e ≠ .ioEof) (parameter : Nat) :
    NeverErr e (decodeRice parameter) :=
  neverErr_bind (neverErr_readUnary he) (fun _ =>
    neverErr_bind (neverErr_readU32Bits he parameter) (fun _ => neverErr_pure e _))

theorem neverErr_wastedBitsGo {e : ErrorCode} (he : e ≠ .ioEof) (fuel : Nat) :
    ∀ acc st, wastedBitsGo fuel acc st ≠ .err e := by
  induction fuel with
  | zero => exact fun _ _ h => DRes.noConfusion h
  | succ fuel ih =>
      intro acc st h
      simp only [wastedBitsGo] at h
      split at h
      · exact DRes.noConfusion h
      · next st1 hb => exact ih (acc + 1) st1 h
      · next e1 hb =>
          injection h with h1
          exact neverErr_readBool he st (h1 ▸ hb)
      · exact DRes.noConfusion h

theorem neverErr_subframeHeaderFromReader {e : ErrorCode} (he1 : e ≠ .ioEof)
    (he2 : e ≠ .subframeOutOfSync) (he3 : e ≠ .subframeReservedType) :
    NeverErr e SubframeHeader.fromReader := by
  refine neverErr_bind (neverErr_readBool he1) (fun zero => ?_)
  refine neverErr_ite _ (neverErr_fail he2) ?_
  refine neverErr_bind (neverErr_readU8Bits he1 6) (fun code => ?_)
  cases hp : PredictionMethod.parse code with
  | none => exact neverErr_fail he3
  | some method =>
      refine neverErr_bind (neverErr_readBool he1) (fun wastedFlag => ?_)
      refine neverErr_ite _ ?_ ?_
      · refine neverErr_bind ?_ (fun wasted => neverErr_pure e _)
        intro st h
        exact neverErr_wastedBitsGo he1 (meas st + 1) 0 st h
      · exact neverErr_bind (neverErr_pure e 0) (fun wasted => neverErr_pure e _)

theorem neverErr_subframeFromReader {e : ErrorCode} (he1 : e ≠ .ioEof)
    (he2 : e ≠ .subframeOutOfSync) (he3 : e ≠ .subframeReservedType)
    (sampleSize blockSize : Nat) : NeverErr e (Subframe.fromReader sampleSize blockSize) :=
  neverErr_bind (neverErr_subframeHeaderFromReader he1 he2 he3) (fun _ => neverErr_pure e _)

theorem neverErr_readSamples {e : ErrorCode} (he : e ≠ .ioEof) (bps : Nat) :
    ∀ (count : Nat) (vec : List Int), NeverErr e (readSamples bps count vec) := by
  intro count
  induction count with
  | zero => exact fun vec => neverErr_pure e vec
  | succ k ih =>
      exact fun vec => neverErr_bind (neverErr_readU64Bits he bps) (fun _ => ih _)

theorem neverErr_decodeConstant {e : ErrorCode} (he : e ≠ .ioEof) (sf : Subframe)
    (vec : List Int) : NeverErr e (sf.decodeConstant vec) :=
  neverErr_bind (neverErr_readU64Bits he sf.sampleSize) (fun _ => neverErr_pure e _)

theorem neverErr_decodeVerbatim {e : ErrorCode} (he : e ≠ .ioEof) (sf : Subframe)
    (vec : List Int) : NeverErr e (sf.decodeVerbatim vec) :=
  neverErr_readSamples he sf.sampleSize sf.blockSize vec

theorem neverErr_restoreSignals {e : ErrorCode} (he : e ≠ .lpcSignalRestoreFailure)
    (sf : Subframe) (c : List Int) (sh : Int) (order : Nat) (vec : List Int) :
    NeverErr e (sf.restoreSignals c sh order vec) := by
  intro st h
  simp only [Subframe.restoreSignals] at h
  by_cases hc : (c.length ≠ order ∨ vec.length ≠ sf.blockSize ∨ sh < 0)
  · rw [if_pos hc] at h
    injection h with h1
    exact he h1.symm
  · rw [if_neg hc] at h
    exact DRes.noConfusion h

theorem neverErr_riceSamples {e : ErrorCode} (he : e ≠ .ioEof) (parameter : Nat) :
    ∀ (count : Nat) (vec : List Int), NeverErr e (riceSamples parameter count vec) := by
  intro count
  induction count with
  | zero => exact fun vec => neverErr_pure e vec
  | succ k ih =>
      exact fun vec => neverErr_bind (neverErr_decodeRice he parameter) (fun _ => ih _)

theorem neverErr_residualPartitions {e : ErrorCode} (he : e ≠ .ioEof) (sf : Subframe)
    (predictorOrder depth partitionOrder : Nat) :
    ∀ (fuel iPartition : Nat) (vec : List Int),
      NeverErr e (residualPartitions sf predictorOrder depth partitionOrder
        iPartition fuel vec) := by
  intro fuel
  induction fuel with
  | zero => exact fun _ vec => neverErr_pure e vec
  | succ k ih =>
      intro i vec
      refine neverErr_bind (neverErr_readU8Bits he depth) (fun parameter => ?_)
      refine neverErr_ite _ (neverErr_abort e) ?_
      exact neverErr_bind (neverErr_riceSamples he parameter _ _) (ih (i + 1))

theorem neverErr_decodeResidualsDepth {e : ErrorCode} (he : e ≠ .ioEof) (sf : Subframe)
    (vec : List Int) (predictorOrder depth : Nat) :
    NeverErr e (sf.decodeResidualsDepth vec predictorOrder depth) :=
  neverErr_bind (neverErr_readU8Bits he 4) (fun po =>
    neverErr_residualPartitions he sf predictorOrder depth po (1 <<< po) 0 vec)

theorem neverErr_decodeResiduals {e : ErrorCode} (he : e ≠ .ioEof)
    (hrm : e ≠ .residualCodingMethodUnknown) (sf : Subframe) (vec : List Int)
    (predictorOrder : Nat) : NeverErr e (sf.decodeResiduals vec predictorOrder) := by
  refine neverErr_bind (neverErr_readU8Bits he 2) (fun cm => ?_)
  rcases cm with _ | _ | n
  · exact neverErr_decodeResidualsDepth he sf vec predictorOrder 4
  · exact neverErr_decodeResidualsDepth he sf vec predictorOrder 5
  · exact neverErr_fail hrm

theorem neverErr_warmupResiduals {e : ErrorCode} (he : e ≠ .ioEof)
    (hrm : e ≠ .residualCodingMethodUnknown) (sf : Subframe) (vec : List Int)
    (order : Nat) : NeverErr e (sf.warmupResiduals vec order) :=
  neverErr_bind (neverErr_readSamples he sf.sampleSize order vec)
    (fun v1 => neverErr_decodeResiduals he hrm sf v1 order)

theorem neverErr_decodeFixed {e : ErrorCode} (he : e ≠ .ioEof)
    (hrm : e ≠ .residualCodingMethodUnknown) (hfc : e ≠ .fixedLPCCoefficientUnknown)
    (hlp : e ≠ .lpcSignalRestoreFailure) (sf : Subframe) (vec : List Int) (order : Nat) :
    NeverErr e (sf.decodeFixed vec order) := by
  refine neverErr_bind (neverErr_warmupResiduals he hrm sf vec order) (fun vec1 => ?_)
  cases hoc : obtainCoefficients order with
  | none => exact neverErr_fail hfc
  | some coefficients => exact neverErr_restoreSignals hlp sf coefficients 0 order vec1

theorem neverErr_readCoefficients {e : ErrorCode} (he : e ≠ .ioEof) (precision : Nat) :
    ∀ k, NeverErr e (readCoefficients precision k) := by
  intro k
  induction k with
  | zero => exact neverErr_pure e []
  | succ k ih =>
      exact neverErr_bind (neverErr_readU64Bits he precision) (fun _ =>
        neverErr_bind ih (fun _ => neverErr_pure e _))

theorem neverErr_decodeFir {e : ErrorCode} (he : e ≠ .ioEof)
    (hrm : e ≠ .residualCodingMethodUnknown) (hq : e ≠ .qlpPrecisionInvalid)
    (hlp : e ≠ .lpcSignalRestoreFailure) (sf : Subframe) (vec : List Int) (order : Nat) :
    NeverErr e (sf.decodeFir vec order) := by
  refine neverErr_bind (neverErr_readSamples he sf.sampleSize order vec) (fun vec1 => ?_)
  refine neverErr_bind (neverErr_readU8Bits he 4) (fun precisionBits => ?_)
  refine neverErr_ite _ (neverErr_fail hq) ?_
  refine neverErr_bind (neverErr_readU64Bits he 5) (fun shiftBits => ?_)
  refine neverErr_bind (neverErr_readCoefficients he _ order) (fun coefficients => ?_)
  refine neverErr_bind (neverErr_decodeResiduals he hrm sf vec1 order) (fun vec2 => ?_)
  exact neverErr_restoreSignals hlp sf coefficients _ order vec2

theorem neverErr_subframeDecode {e : ErrorCode} (he : e ≠ .ioEof)
    (hrm : e ≠ .residualCodingMethodUnknown) (hfc : e ≠ .fixedLPCCoefficientUnknown)
    (hq : e ≠ .qlpPrecisionInvalid) (hlp : e ≠ .lpcSignalRestoreFailure)
    (sf : Subframe) (vec : List Int) : NeverErr e (sf.decode vec) := by
  unfold Subframe.decode
  cases sf.method with
  | constant => exact neverErr_decodeConstant he sf vec
  | verbatim => exact neverErr_decodeVerbatim he sf vec
  | fixed order => exact neverErr_decodeFixed he hrm hfc hlp sf vec order
  | fir order => exact neverErr_decodeFir he hrm hq hlp sf vec order

theorem neverErr_decodeOneSubframe {e : ErrorCode} (he : e ≠ .ioEof)
    (hsos : e ≠ .subframeOutOfSync) (hsrt : e ≠ .subframeReservedType)
    (hrm : e ≠ .residualCodingMethodUnknown) (hfc : e ≠ .fixedLPCCoefficientUnknown)
    (hq : e ≠ .qlpPrecisionInvalid) (hlp : e ≠ .lpcSignalRestoreFailure)
    (sampleSize blockSize : Nat) (vec : List Int) :
    NeverErr e (decodeOneSubframe sampleSize blockSize vec) :=
  neverErr_bind (neverErr_subframeFromReader he hsos hsrt sampleSize blockSize)
    (fun subframe => neverErr_subframeDecode he hrm hfc hq hlp subframe vec)

theorem neverErr_skipUtf8Go {e : ErrorCode} (he : e ≠ .ioEof) (fuel : Nat) :
    ∀ v1, NeverErr e (skipUtf8Go fuel v1) := by
  induction fuel with
  | zero => exact fun _ _ h => DRes.noConfusion h
  | succ fuel ih =>
      intro v1 st h
      simp only [skipUtf8Go] at h
      by_cases hv : 0xC0 ≤ v1
      · rw [if_pos hv] at h
        split at h
        · next u st1 hb => exact ih _ st1 h
        · next e1 hb =>
            injection h with h1
            exact neverErr_readU8 he st (h1 ▸ hb)
        · exact DRes.noConfusion h
      · rw [if_neg hv] at h
        exact DRes.noConfusion h

theorem neverErr_frameHeaderRest {e : ErrorCode} (he : e ≠ .ioEof)
    (hc8 : e ≠ .frameHeaderCrcMismatch) (hss : e ≠ .frameSampleSizeUnknown)
    (hbs : e ≠ .frameBlockSizeUnknown) (hca : e ≠ .frameChannelAssignmentUnknown)
    (info : StreamInfo) : NeverErr e (frameHeaderRest info) := by
  refine neverErr_bind (neverErr_readBool he) (fun z => ?_)
  refine neverErr_bind (neverErr_readU8Bits he 1) (fun bstrat => ?_)
  refine neverErr_bind (neverErr_readU8Bits he 4) (fun blockSizeBits => ?_)
  refine neverErr_bind (neverErr_readU8Bits he 4) (fun sampleRateBits => ?_)
  refine neverErr_bind (neverErr_readU8Bits he 4) (fun channelBits => ?_)
  refine neverErr_bind (neverErr_readU8Bits he 3) (fun sampleSizeBits => ?_)
  refine neverErr_bind (neverErr_readBool he) (fun r => ?_)
  refine neverErr_bind (neverErr_readU8 he) (fun v1 => ?_)
  refine neverErr_bind (neverErr_skipUtf8Go he 9 v1) (fun u => ?_)
  refine neverErr_bind ?_ (fun variableBlockSize => ?_)
  · rcases blockSizeBits with _ | _ | _ | _ | _ | _ | _ | _ | n
    · exact neverErr_pure e none
    · exact neverErr_pure e none
    · exact neverErr_pure e none
    · exact neverErr_pure e none
    · exact neverErr_pure e none
    · exact neverErr_pure e none
    · exact neverErr_bind (neverErr_readU8 he) (fun x => neverErr_pure e _)
    · exact neverErr_bind (neverErr_readU16 he) (fun x => neverErr_pure e _)
    · exact neverErr_pure e none
  · refine neverErr_bind ?_ (fun sr => ?_)
    · rcases sampleRateBits with _ | _ | _ | _ | _ | _ | _ | _ | _ | _ | _ | _ | _ | _ | _ | n
      · exact neverErr_pure e 0
      · exact neverErr_pure e 0
      · exact neverErr_pure e 0
      · exact neverErr_pure e 0
      · exact neverErr_pure e 0
      · exact neverErr_pure e 0
      · exact neverErr_pure e 0
      · exact neverErr_pure e 0
      · exact neverErr_pure e 0
      · exact neverErr_pure e 0
      · exact neverErr_pure e 0
      · exact neverErr_pure e 0
      · exact neverErr_readU8 he
      · exact neverErr_readU16 he
      · exact neverErr_readU16 he
      · exact neverErr_pure e 0
    · refine neverErr_bind (neverErr_computeCrc8End e) (fun actual => ?_)
      refine neverErr_bind (neverErr_readU8 he) (fun expected => ?_)
      refine neverErr_ite _ (neverErr_fail hc8) ?_
      refine neverErr_bind (neverErr_okOrElse hss _) (fun ss => ?_)
      refine neverErr_bind (neverErr_okOrElse hbs _) (fun bs => ?_)
      refine neverErr_bind (neverErr_okOrElse hca _) (fun ca => ?_)
      exact neverErr_pure e _

theorem neverErr_frameHeaderFromReader {e : ErrorCode} (he : e ≠ .ioEof)
    (hc8 : e ≠ .frameHeaderCrcMismatch) (hss : e ≠ .frameSampleSizeUnknown)
    (hbs : e ≠ .frameBlockSizeUnknown) (hca : e ≠ .frameChannelAssignmentUnknown)
    (hoos : e ≠ .frameOutOfSync) (info : StreamInfo) :
    NeverErr e (FrameHeader.fromReader info) := by
  intro st h
  simp only [FrameHeader.fromReader] at h
  split at h
  · next u st1 hbeg =>
      split at h
      · next sync st2 h16 =>
          by_cases hsync : sync ≠ 0x3ffe
          · rw [if_pos hsync] at h
            injection h with h1
            exact hoos h1.symm
          · rw [if_neg hsync] at h
            exact neverErr_frameHeaderRest he hc8 hss hbs hca info st2 h
      · next e1 h16 =>
          by_cases hio : e1 = .ioEof
          · rw [if_pos hio] at h
            exact DRes.noConfusion h
          · rw [if_neg hio] at h
            injection h with h1
            exact absurd h16 (neverErr_readU16Bits hio 14 st1)
      · exact DRes.noConfusion h
  · next e1 hbeg => exact DRes.noConfusion hbeg
  · next hbeg => exact DRes.noConfusion hbeg

theorem neverErr_decodeChannels {e : ErrorCode} (he : e ≠ .ioEof)
    (hsos : e ≠ .subframeOutOfSync) (hsrt : e ≠ .subframeReservedType)
    (hrm : e ≠ .residualCodingMethodUnknown) (hfc : e ≠ .fixedLPCCoefficientUnknown)
    (hq : e ≠ .qlpPrecisionInvalid) (hlp : e ≠ .lpcSignalRestoreFailure)
    (hfb : e ≠ .frameBufferUnallocated) (sampleSize blockSize : Nat) :
    ∀ (fuel i : Nat) (blocks : List (List Int)),
      NeverErr e (decodeChannels sampleSize blockSize i fuel blocks) := by
  intro fuel
  induction fuel with
  | zero => exact fun _ blocks => neverErr_pure e blocks
  | succ k ih =>
      intro i blocks
      simp only [decodeChannels]
      cases hb : blocks[i]? with
      | none => exact neverErr_fail hfb
      | some block =>
          exact neverErr_bind
            (neverErr_decodeOneSubframe he hsos hsrt hrm hfc hq hlp sampleSize blockSize block)
            (fun _ => ih (i + 1) _)

theorem neverErr_decodeFrameChannels {e : ErrorCode} (he : e ≠ .ioEof)
    (hsos : e ≠ .subframeOutOfSync) (hsrt : e ≠ .subframeReservedType)
    (hrm : e ≠ .residualCodingMethodUnknown) (hfc : e ≠ .fixedLPCCoefficientUnknown)
    (hq : e ≠ .qlpPrecisionInvalid) (hlp : e ≠ .lpcSignalRestoreFailure)
    (hfb : e ≠ .frameBufferUnallocated) (header : FrameHeader) (blocks : List (List Int)) :
    NeverErr e (decodeFrameChannels header blocks) := by
  unfold decodeFrameChannels
  cases header.channelAssignment with
  | independent numChannels =>
      exact neverErr_decodeChannels he hsos hsrt hrm hfc hq hlp hfb
        header.sampleSize header.blockSize numChannels 0 blocks
  | leftSideStereo =>
      rcases blocks with _ | ⟨leftVec, _ | ⟨sideVec, rest⟩⟩
      · exact neverErr_fail hfb
      · exact neverErr_fail hfb
      · exact neverErr_bind
          (neverErr_decodeOneSubframe he hsos hsrt hrm hfc hq hlp
            header.sampleSize header.blockSize leftVec)
          (fun left => neverErr_bind
            (neverErr_decodeOneSubframe he hsos hsrt hrm hfc hq hlp
              (header.sampleSize + 1) header.blockSize sideVec)
            (fun side => neverErr_pure e _))
  | sideRightStereo =>
      rcases blocks with _ | ⟨sideVec, _ | ⟨rightVec, rest⟩⟩
      · exact neverErr_fail hfb
      · exact neverErr_fail hfb
      · exact neverErr_bind
          (neverErr_decodeOneSubframe he hsos hsrt hrm hfc hq hlp
            (header.sampleSize + 1) header.blockSize sideVec)
          (fun side => neverErr_bind
            (neverErr_decodeOneSubframe he hsos hsrt hrm hfc hq hlp
              header.sampleSize header.blockSize rightVec)
            (fun right => neverErr_pure e _))
  | midSideStereo =>
      rcases blocks with _ | ⟨midVec, _ | ⟨sideVec, rest⟩⟩
      · exact neverErr_fail hfb
      · exact neverErr_fail hfb
      · exact neverErr_bind
          (neverErr_decodeOneSubframe he hsos hsrt hrm hfc hq hlp
            header.sampleSize header.blockSize midVec)
          (fun mid => neverErr_bind
            (neverErr_decodeOneSubframe he hsos hsrt hrm hfc hq hlp
              (header.sampleSize + 1) header.blockSize sideVec)
            (fun side => neverErr_pure e _))

theorem neverErr_metadataHeaderFromReader {e : ErrorCode} (he : e ≠ .ioEof) :
    NeverErr e MetadataHeader.fromReader :=
  neverErr_bind (neverErr_readBool he) (fun last =>
    neverErr_bind (neverErr_readU8Bits he 7) (fun ty =>
      neverErr_bind (neverErr_readU32Bits he 24) (fun len => neverErr_pure e _)))

theorem neverErr_streamInfoFromReader {e : ErrorCode} (he : e ≠ .ioEof) :
    NeverErr e StreamInfo.fromReader :=
  neverErr_bind (neverErr_readU16 he) (fun a =>
    neverErr_bind (neverErr_readU16 he) (fun b =>
      neverErr_bind (neverErr_readU32Bits he 24) (fun c =>
        neverErr_bind (neverErr_readU32Bits he 24) (fun d =>
          neverErr_bind (neverErr_readU32Bits he 20) (fun f =>
            neverErr_bind (neverErr_readU8Bits he 3) (fun g =>
              neverErr_bind (neverErr_readU8Bits he 5) (fun i =>
                neverErr_bind (neverErr_readU64Bits he 36) (fun j =>
                  neverErr_bind (neverErr_readU128 he) (fun k =>
                    neverErr_pure e _)))))))))

theorem writeBytes_err {self : Bitvec} {n : Nat} {st : DecodeState} {e : ErrorCode}
    (h : Bitvec.writeBytes self n st = .err e) : e = .ioEof := by
  simp only [Bitvec.writeBytes] at h
  by_cases hn : n = 0
  · rw [if_pos hn] at h
    exact DRes.noConfusion h
  · rw [if_neg hn] at h
    split at h
    · next bs st1 hre => split at h <;> exact DRes.noConfusion h
    · next e1 hre =>
        injection h with h1
        exact h1 ▸ readExact_err hre
    · exact DRes.noConfusion h

theorem neverErr_writeBytes {e : ErrorCode} (he : e ≠ .ioEof) (self : Bitvec) (n : Nat) :
    NeverErr e (self.writeBytes n) :=
  fun _ h => he (writeBytes_err h)

theorem readBitvec_err {vec : Bitvec} {n : Nat} {st : DecodeState} {e : ErrorCode}
    (h : readBitvec vec n st = .err e) : e = .ioEof := by
  simp only [readBitvec] at h
  by_cases hc : st.queueCount < n
  · rw [if_pos hc] at h
    split at h
    · next vec2 st1 hwb =>
        split at h
        · exact DRes.noConfusion h
        · next e1 hre =>
            injection h with h1
            exact h1 ▸ readExact_err hre
        · exact DRes.noConfusion h
    · next e1 hwb =>
        injection h with h1
        exact h1 ▸ writeBytes_err hwb
    · exact DRes.noConfusion h
  · rw [if_neg hc] at h
    exact DRes.noConfusion h

theorem neverErr_readBitvec {e : ErrorCode} (he : e ≠ .ioEof) (vec : Bitvec) (n : Nat) :
    NeverErr e (readBitvec vec n) :=
  fun _ h => he (readBitvec_err h)

theorem neverErr_skipBody {e : ErrorCode} (he : e ≠ .ioEof) (self : MetadataHeader) :
    NeverErr e self.skipBody :=
  neverErr_bind (neverErr_readBitvec he _ _) (fun _ => neverErr_pure e _)

theorem neverErr_skipChainGo {e : ErrorCode} (he : e ≠ .ioEof) (fuel : Nat) :
    NeverErr e (skipChainGo fuel) := by
  induction fuel with
  | zero => exact neverErr_abort e
  | succ fuel ih =>
      refine neverErr_bind (neverErr_metadataHeaderFromReader he) (fun header => ?_)
      refine neverErr_bind (neverErr_skipBody he header) (fun u => ?_)
      exact neverErr_ite _ (neverErr_pure e ()) ih

theorem neverErr_streamNew {e : ErrorCode} (he : e ≠ .ioEof) (hw : e ≠ .wrongMagic) :
    NeverErr e Stream.new := by
  refine neverErr_bind (neverErr_readU32 he) (fun magic => ?_)
  refine neverErr_ite _ (neverErr_fail hw) ?_
  refine neverErr_bind (neverErr_metadataHeaderFromReader he) (fun header => ?_)
  refine neverErr_bind (neverErr_streamInfoFromReader he) (fun si => ?_)
  refine neverErr_bind (neverErr_ite _ ?_ (neverErr_pure e ())) (fun u => neverErr_pure e _)
  intro st h
  exact neverErr_skipChainGo he (meas st + 1) st h

/-! ## The CRC-16 region invariant: every decoding step between
`compute_crc16_begin` and `compute_crc16_end` folds exactly the source
bytes it consumes into the open CRC-16 accumulator -/

/-- Whenever `f` succeeds with the CRC-16 region open, the region stays
open, some prefix of the source is consumed, and exactly the consumed
bytes are folded into the CRC-16 accumulator. -/
def Crc16Chain {α : Type} (f : DecM α) : Prop :=
  ∀ st a st', f st = .ok a st' → st.computingCrc16 = true →
    st'.computingCrc16 = true ∧
    ∃ k, k ≤ st.source.length ∧ st'.source = st.source.drop k ∧
      st'.crc16 = crc16Run st.crc16 (st.source.take k)

theorem chainData_trans {l s1 s2 : List Nat} {c c1 c2 : Nat} (k1 k2 : Nat)
    (hk1 : k1 ≤ l.length) (hs1 : s1 = l.drop k1) (hc1 : c1 = crc16Run c (l.take k1))
    (hk2 : k2 ≤ s1.length) (hs2 : s2 = s1.drop k2) (hc2 : c2 = crc16Run c1 (s1.take k2)) :
    k1 + k2 ≤ l.length ∧ s2 = l.drop (k1 + k2) ∧ c2 = crc16Run c (l.take (k1 + k2)) := by
  subst hs1 hc1 hs2 hc2
  refine ⟨?_, ?_, ?_⟩
  · rw [List.length_drop] at hk2
    omega
  · rw [List.drop_drop]
  · rw [List.take_add, crc16Run_append]

theorem crc16Chain_pure {α : Type} (a : α) : Crc16Chain (pure a : DecM α) := by
  intro st b st' h hc
  rw [DecM.run_pure] at h
  injection h with h1 h2
  subst h2
  exact ⟨hc, 0, Nat.zero_le _, rfl, rfl⟩

theorem crc16Chain_fail {α : Type} (e : ErrorCode) : Crc16Chain (DecM.fail e : DecM α) := by
  intro st a st' h hc
  exact DRes.noConfusion h

theorem crc16Chain_abort {α : Type} : Crc16Chain (DecM.abort : DecM α) := by
  intro st a st' h hc
  exact DRes.noConfusion h

theorem crc16Chain_bind {α β : Type} {x : DecM α} {f : α → DecM β}
    (hx : Crc16Chain x) (hf : ∀ a, Crc16Chain (f a)) : Crc16Chain (x >>= f) := by
  intro st b st' h hc
  obtain ⟨a, st1, h1, h2⟩ := DecM.bind_ok h
  obtain ⟨hc1, k1, hk1, hs1, hcrc1⟩ := hx st a st1 h1 hc
  obtain ⟨hc2, k2, hk2, hs2, hcrc2⟩ := hf a st1 b st' h2 hc1
  obtain ⟨hk, hs, hcr⟩ := chainData_trans k1 k2 hk1 hs1 hcrc1 hk2 hs2 hcrc2
  exact ⟨hc2, k1 + k2, hk, hs, hcr⟩

theorem crc16Chain_ite {α : Type} (c : Prop) [Decidable c] {t f : DecM α}
    (ht : Crc16Chain t) (hf : Crc16Chain f) : Crc16Chain (if c then t else f) := by
  by_cases hc : c
  · rw [if_pos hc]
    exact ht
  · rw [if_neg hc]
    exact hf

theorem crc16Chain_readExact (k : Nat) : Crc16Chain (readExact k) := by
  intro st a st' h hc
  simp only [readExact] at h
  by_cases hk : k ≤ st.source.length
  · rw [if_pos hk] at h
    injection h with h1 h2
    subst h2
    refine ⟨hc, k, hk, rfl, ?_⟩
    show (if st.computingCrc16 = true then crc16Run st.crc16 (st.source.take k) else st.crc16) =
      crc16Run st.crc16 (st.source.take k)
    rw [if_pos hc]
  · rw [if_neg hk] at h
    exact DRes.noConfusion h

theorem crc16Chain_readValue (n : Nat) : Crc16Chain (readValue n) := by
  intro st a st' h hc
  simp only [readValue] at h
  by_cases hn : n ≤ 64
  · rw [if_pos hn] at h
    by_cases hqc : st.queueCount < n
    · rw [if_pos hqc] at h
      split at h
      · next bytes st1 hre =>
          injection h with h1 h2
          subst h2
          obtain ⟨hc1, k, hk, hs, hcrc⟩ := crc16Chain_readExact _ st bytes st1 hre hc
          exact ⟨hc1, k, hk, hs, hcrc⟩
      · exact DRes.noConfusion h
      · exact DRes.noConfusion h
    · rw [if_neg hqc] at h
      injection h with h1 h2
      subst h2
      exact ⟨hc, 0, Nat.zero_le _, rfl, rfl⟩
  · rw [if_neg hn] at h
    exact DRes.noConfusion h

theorem crc16Chain_readBool : Crc16Chain readBool :=
  crc16Chain_bind (crc16Chain_readValue 1) (fun _ => crc16Chain_pure _)

theorem crc16Chain_readU8Bits (n : Nat) : Crc16Chain (readU8Bits n) := by
  intro st a st' h hc
  simp only [readU8Bits] at h
  by_cases hn : n ≤ 8
  · rw [if_pos hn] at h
    exact crc16Chain_bind (crc16Chain_readValue n) (fun _ => crc16Chain_pure _) st a st' h hc
  · rw [if_neg hn] at h
    exact DRes.noConfusion h

theorem crc16Chain_readU8 : Crc16Chain readU8 :=
  crc16Chain_bind (crc16Chain_readValue 8) (fun _ => crc16Chain_pure _)

theorem crc16Chain_readU16Bits (n : Nat) : Crc16Chain (readU16Bits n) := by
  intro st a st' h hc
  simp only [readU16Bits] at h
  by_cases hn : n ≤ 16
  · rw [if_pos hn] at h
    exact crc16Chain_bind (crc16Chain_readValue n) (fun _ => crc16Chain_pure _) st a st' h hc
  · rw [if_neg hn] at h
    exact DRes.noConfusion h

theorem crc16Chain_readU16 : Crc16Chain readU16 :=
  crc16Chain_bind (crc16Chain_readValue 16) (fun _ => crc16Chain_pure _)

theorem crc16Chain_readU32Bits (n : Nat) : Crc16Chain (readU32Bits n) := by
  intro st a st' h hc
  simp only [readU32Bits] at h
  by_cases hn : n ≤ 32
  · rw [if_pos hn] at h
    exact crc16Chain_bind (crc16Chain_readValue n) (fun _ => crc16Chain_pure _) st a st' h hc
  · rw [if_neg hn] at h
    exact DRes.noConfusion h

theorem crc16Chain_readU64Bits (n : Nat) : Crc16Chain (readU64Bits n) := by
  intro st a st' h hc
  simp only [readU64Bits] at h
  by_cases hn : n ≤ 64
  · rw [if_pos hn] at h
    exact crc16Chain_readValue n st a st' h hc
  · rw [if_neg hn] at h
    exact DRes.noConfusion h

theorem crc16Chain_alignToByte : Crc16Chain alignToByte := by
  intro st a st' h hc
  injection h with h1 h2
  subst h2
  exact ⟨hc, 0, Nat.zero_le _, rfl, rfl⟩

theorem crc16Chain_computeCrc8Begin : Crc16Chain computeCrc8Begin := by
  intro st a st' h hc
  injection h with h1 h2
  subst h2
  exact ⟨hc, 0, Nat.zero_le _, rfl, rfl⟩

theorem crc16Chain_computeCrc8End : Crc16Chain computeCrc8End := by
  intro st a st' h hc
  injection h with h1 h2
  subst h2
  exact ⟨hc, 0, Nat.zero_le _, rfl, rfl⟩

theorem crc16Chain_okOrElse {α : Type} (o : Option α) (e : ErrorCode) :
    Crc16Chain (okOrElse o e) := by
  intro st a st' h hc
  simp only [okOrElse] at h
  cases o with
  | none => exact DRes.noConfusion h
  | some x =>
      injection h with h1 h2
      subst h2
      exact ⟨hc, 0, Nat.zero_le _, rfl, rfl⟩

theorem crc16Chain_readUnaryGo (fuel : Nat) :
    ∀ st a st', readUnaryGo fuel st = .ok a st' → st.computingCrc16 = true →
      st'.computingCrc16 = true ∧
      ∃ k, k ≤ st.source.length ∧ st'.source = st.source.drop k ∧
        st'.crc16 = crc16Run st.crc16 (st.source.take k) := by
  induction fuel with
  | zero => exact fun _ _ _ h _ => DRes.noConfusion h
  | succ fuel ih =>
      intro st a st' h hc
      simp only [readUnaryGo] at h
      split at h
      · next st1 hb =>
          injection h with h1 h2
          subst h2
          exact crc16Chain_readBool st true st1 hb hc
      · next st1 hb =>
          split at h
          · next k2 st2 hr =>
              injection h with h1 h2
              subst h2
              obtain ⟨hcb, kb, hkb, hsb, hcrcb⟩ := crc16Chain_readBool st false st1 hb hc
              obtain ⟨hcr, kr, hkr, hsr, hcrcr⟩ := ih st1 k2 st2 hr hcb
              obtain ⟨hk, hs, hcr2⟩ := chainData_trans kb kr hkb hsb hcrcb hkr hsr hcrcr
              exact ⟨hcr, kb + kr, hk, hs, hcr2⟩
          · exact DRes.noConfusion h
          · exact DRes.noConfusion h
      · exact DRes.noConfusion h
      · exact DRes.noConfusion h

theorem crc16Chain_readUnary : Crc16Chain readUnary := by
  intro st a st' h hc
  exact crc16Chain_readUnaryGo (meas st + 1) st a st' h hc

theorem crc16Chain_decodeRice (parameter : Nat) : Crc16Chain (decodeRice parameter) :=
  crc16Chain_bind crc16Chain_readUnary (fun _ =>
    crc16Chain_bind (crc16Chain_readU32Bits parameter) (fun _ => crc16Chain_pure _))

theorem crc16Chain_wastedBitsGo (fuel : Nat) :
    ∀ acc st a st', wastedBitsGo fuel acc st = .ok a st' → st.computingCrc16 = true →
      st'.computingCrc16 = true ∧
      ∃ k, k ≤ st.source.length ∧ st'.source = st.source.drop k ∧
        st'.crc16 = crc16Run st.crc16 (st.source.take k) := by
  induction fuel with
  | zero => exact fun _ _ _ _ h _ => DRes.noConfusion h
  | succ fuel ih =>
      intro acc st a st' h hc
      simp only [wastedBitsGo] at h
      split at h
      · next st1 hb =>
          injection h with h1 h2
          subst h2
          exact crc16Chain_readBool st true st1 hb hc
      · next st1 hb =>
          obtain ⟨hcb, kb, hkb, hsb, hcrcb⟩ := crc16Chain_readBool st false st1 hb hc
          obtain ⟨hcr, kr, hkr, hsr, hcrcr⟩ := ih (acc + 1) st1 a st' h hcb
          obtain ⟨hk, hs, hcr2⟩ := chainData_trans kb kr hkb hsb hcrcb hkr hsr hcrcr
          exact ⟨hcr, kb + kr, hk, hs, hcr2⟩
      · exact DRes.noConfusion h
      · exact DRes.noConfusion h

theorem crc16Chain_subframeHeaderFromReader : Crc16Chain SubframeHeader.fromReader := by
  refine crc16Chain_bind crc16Chain_readBool (fun zero => ?_)
  refine crc16Chain_ite _ (crc16Chain_fail _) ?_
  refine crc16Chain_bind (crc16Chain_readU8Bits 6) (fun code => ?_)
  cases hp : PredictionMethod.parse code with
  | none => exact crc16Chain_fail _
  | some method =>
      refine crc16Chain_bind crc16Chain_readBool (fun wastedFlag => ?_)
      refine crc16Chain_ite _ ?_ ?_
      · refine crc16Chain_bind ?_ (fun wasted => crc16Chain_pure _)
        intro st a st' h hc
        exact crc16Chain_wastedBitsGo (meas st + 1) 0 st a st' h hc
      · exact crc16Chain_bind (crc16Chain_pure 0) (fun wasted => crc16Chain_pure _)

theorem crc16Chain_subframeFromReader (sampleSize blockSize : Nat) :
    Crc16Chain (Subframe.fromReader sampleSize blockSize) :=
  crc16Chain_bind crc16Chain_subframeHeaderFromReader (fun _ => crc16Chain_pure _)

theorem crc16Chain_readSamples (bps : Nat) :
    ∀ (count : Nat) (vec : List Int), Crc16Chain (readSamples bps count vec) := by
  intro count
  induction count with
  | zero => exact fun vec => crc16Chain_pure vec
  | succ k ih =>
      exact fun vec => crc16Chain_bind (crc16Chain_readU64Bits bps) (fun _ => ih _)

theorem crc16Chain_decodeConstant (sf : Subframe) (vec : List Int) :
    Crc16Chain (sf.decodeConstant vec) :=
  crc16Chain_bind (crc16Chain_readU64Bits sf.sampleSize) (fun _ => crc16Chain_pure _)

theorem crc16Chain_decodeVerbatim (sf : Subframe) (vec : List Int) :
    Crc16Chain (sf.decodeVerbatim vec) :=
  crc16Chain_readSamples sf.sampleSize sf.blockSize vec

theorem crc16Chain_restoreSignals (sf : Subframe) (c : List Int) (sh : Int)
    (order : Nat) (vec : List Int) : Crc16Chain (sf.restoreSignals c sh order vec) := by
  intro st a st' h hc
  simp only [Subframe.restoreSignals] at h
  by_cases hcnd : (c.length ≠ order ∨ vec.length ≠ sf.blockSize ∨ sh < 0)
  · rw [if_pos hcnd] at h
    exact DRes.noConfusion h
  · rw [if_neg hcnd] at h
    injection h with h1 h2
    subst h2
    exact ⟨hc, 0, Nat.zero_le _, rfl, rfl⟩

theorem crc16Chain_riceSamples (parameter : Nat) :
    ∀ (count : Nat) (vec : List Int), Crc16Chain (riceSamples parameter count vec) := by
  intro count
  induction count with
  | zero => exact fun vec => crc16Chain_pure vec
  | succ k ih =>
      exact fun vec => crc16Chain_bind (crc16Chain_decodeRice parameter) (fun _ => ih _)

theorem crc16Chain_residualPartitions (sf : Subframe)
    (predictorOrder depth partitionOrder : Nat) :
    ∀ (fuel iPartition : Nat) (vec : List Int),
      Crc16Chain (residualPartitions sf predictorOrder depth partitionOrder
        iPartition fuel vec) := by
  intro fuel
  induction fuel with
  | zero => exact fun _ vec => crc16Chain_pure vec
  | succ k ih =>
      intro i vec
      refine crc16Chain_bind (crc16Chain_readU8Bits depth) (fun parameter => ?_)
      refine crc16Chain_ite _ crc16Chain_abort ?_
      exact crc16Chain_bind (crc16Chain_riceSamples parameter _ _) (ih (i + 1))

theorem crc16Chain_decodeResidualsDepth (sf : Subframe) (vec : List Int)
    (predictorOrder depth : Nat) : Crc16Chain (sf.decodeResidualsDepth vec predictorOrder depth) :=
  crc16Chain_bind (crc16Chain_readU8Bits 4) (fun po =>
    crc16Chain_residualPartitions sf predictorOrder depth po (1 <<< po) 0 vec)

theorem crc16Chain_decodeResiduals (sf : Subframe) (vec : List Int) (predictorOrder : Nat) :
    Crc16Chain (sf.decodeResiduals vec predictorOrder) := by
  refine crc16Chain_bind (crc16Chain_readU8Bits 2) (fun cm => ?_)
  rcases cm with _ | _ | n
  · exact crc16Chain_decodeResidualsDepth sf vec predictorOrder 4
  · exact crc16Chain_decodeResidualsDepth sf vec predictorOrder 5
  · exact crc16Chain_fail _

theorem crc16Chain_warmupResiduals (sf : Subframe) (vec : List Int) (order : Nat) :
    Crc16Chain (sf.warmupResiduals vec order) :=
  crc16Chain_bind (crc16Chain_readSamples sf.sampleSize order vec)
    (fun v1 => crc16Chain_decodeResiduals sf v1 order)

theorem crc16Chain_decodeFixed (sf : Subframe) (vec : List Int) (order : Nat) :
    Crc16Chain (sf.decodeFixed vec order) := by
  refine crc16Chain_bind (crc16Chain_warmupResiduals sf vec order) (fun vec1 => ?_)
  cases hoc : obtainCoefficients order with
  | none => exact crc16Chain_fail _
  | some coefficients => exact crc16Chain_restoreSignals sf coefficients 0 order vec1

theorem crc16Chain_readCoefficients (precision : Nat) :
    ∀ k, Crc16Chain (readCoefficients precision k) := by
  intro k
  induction k with
  | zero => exact crc16Chain_pure []
  | succ k ih =>
      exact crc16Chain_bind (crc16Chain_readU64Bits precision) (fun _ =>
        crc16Chain_bind ih (fun _ => crc16Chain_pure _))

theorem crc16Chain_decodeFir (sf : Subframe) (vec : List Int) (order : Nat) :
    Crc16Chain (sf.decodeFir vec order) := by
  refine crc16Chain_bind (crc16Chain_readSamples sf.sampleSize order vec) (fun vec1 => ?_)
  refine crc16Chain_bind (crc16Chain_readU8Bits 4) (fun precisionBits => ?_)
  refine crc16Chain_ite _ (crc16Chain_fail _) ?_
  refine crc16Chain_bind (crc16Chain_readU64Bits 5) (fun shiftBits => ?_)
  refine crc16Chain_bind (crc16Chain_readCoefficients _ order) (fun coefficients => ?_)
  refine crc16Chain_bind (crc16Chain_decodeResiduals sf vec1 order) (fun vec2 => ?_)
  exact crc16Chain_restoreSignals sf coefficients _ order vec2

theorem crc16Chain_subframeDecode (sf : Subframe) (vec : List Int) :
    Crc16Chain (sf.decode vec) := by
  unfold Subframe.decode
  cases sf.method with
  | constant => exact crc16Chain_decodeConstant sf vec
  | verbatim => exact crc16Chain_decodeVerbatim sf vec
  | fixed order => exact crc16Chain_decodeFixed sf vec order
  | fir order => exact crc16Chain_decodeFir sf vec order

theorem crc16Chain_decodeOneSubframe (sampleSize blockSize : Nat) (vec : List Int) :
    Crc16Chain (decodeOneSubframe sampleSize blockSize vec) :=
  crc16Chain_bind (crc16Chain_subframeFromReader sampleSize blockSize)
    (fun subframe => crc16Chain_subframeDecode subframe vec)

theorem crc16Chain_skipUtf8Go (fuel : Nat) :
    ∀ v1, Crc16Chain (skipUtf8Go fuel v1) := by
  induction fuel with
  | zero => exact fun _ _ _ _ h _ => DRes.noConfusion h
  | succ fuel ih =>
      intro v1 st a st' h hc
      simp only [skipUtf8Go] at h
      by_cases hv : 0xC0 ≤ v1
      · rw [if_pos hv] at h
        split at h
        · next u st1 hb =>
            obtain ⟨hcb, kb, hkb, hsb, hcrcb⟩ := crc16Chain_readU8 st u st1 hb hc
            obtain ⟨hcr, kr, hkr, hsr, hcrcr⟩ := ih _ st1 a st' h hcb
            obtain ⟨hk, hs, hcr2⟩ := chainData_trans kb kr hkb hsb hcrcb hkr hsr hcrcr
            exact ⟨hcr, kb + kr, hk, hs, hcr2⟩
        · exact DRes.noConfusion h
        · exact DRes.noConfusion h
      · rw [if_neg hv] at h
        injection h with h1 h2
        subst h2
        exact ⟨hc, 0, Nat.zero_le _, rfl, rfl⟩

theorem crc16Chain_frameHeaderRest (info : StreamInfo) :
    Crc16Chain (frameHeaderRest info) := by
  refine crc16Chain_bind crc16Chain_readBool (fun z => ?_)
  refine crc16Chain_bind (crc16Chain_readU8Bits 1) (fun bstrat => ?_)
  refine crc16Chain_bind (crc16Chain_readU8Bits 4) (fun blockSizeBits => ?_)
  refine crc16Chain_bind (crc16Chain_readU8Bits 4) (fun sampleRateBits => ?_)
  refine crc16Chain_bind (crc16Chain_readU8Bits 4) (fun channelBits => ?_)
  refine crc16Chain_bind (crc16Chain_readU8Bits 3) (fun sampleSizeBits => ?_)
  refine crc16Chain_bind crc16Chain_readBool (fun r => ?_)
  refine crc16Chain_bind crc16Chain_readU8 (fun v1 => ?_)
  refine crc16Chain_bind (crc16Chain_skipUtf8Go 9 v1) (fun u => ?_)
  refine crc16Chain_bind ?_ (fun variableBlockSize => ?_)
  · rcases blockSizeBits with _ | _ | _ | _ | _ | _ | _ | _ | n
    · exact crc16Chain_pure none
    · exact crc16Chain_pure none
    · exact crc16Chain_pure none
    · exact crc16Chain_pure none
    · exact crc16Chain_pure none
    · exact crc16Chain_pure none
    · exact crc16Chain_bind crc16Chain_readU8 (fun x => crc16Chain_pure _)
    · exact crc16Chain_bind crc16Chain_readU16 (fun x => crc16Chain_pure _)
    · exact crc16Chain_pure none
  · refine crc16Chain_bind ?_ (fun sr => ?_)
    · rcases sampleRateBits with _ | _ | _ | _ | _ | _ | _ | _ | _ | _ | _ | _ | _ | _ | _ | n
      · exact crc16Chain_pure 0
      · exact crc16Chain_pure 0
      · exact crc16Chain_pure 0
      · exact crc16Chain_pure 0
      · exact crc16Chain_pure 0
      · exact crc16Chain_pure 0
      · exact crc16Chain_pure 0
      · exact crc16Chain_pure 0
      · exact crc16Chain_pure 0
      · exact crc16Chain_pure 0
      · exact crc16Chain_pure 0
      · exact crc16Chain_pure 0
      · exact crc16Chain_readU8
      · exact crc16Chain_readU16
      · exact crc16Chain_readU16
      · exact crc16Chain_pure 0
    · refine crc16Chain_bind crc16Chain_computeCrc8End (fun actual => ?_)
      refine crc16Chain_bind crc16Chain_readU8 (fun expected => ?_)
      refine crc16Chain_ite _ (crc16Chain_fail _) ?_
      refine crc16Chain_bind (crc16Chain_okOrElse _ _) (fun ss => ?_)
      refine crc16Chain_bind (crc16Chain_okOrElse _ _) (fun bs => ?_)
      refine crc16Chain_bind (crc16Chain_okOrElse _ _) (fun ca => ?_)
      exact crc16Chain_pure _

theorem crc16Chain_frameHeaderFromReader (info : StreamInfo) :
    Crc16Chain (FrameHeader.fromReader info) := by
  intro st a st' h hc
  simp only [FrameHeader.fromReader] at h
  split at h
  · next u st1 hbeg =>
      have hbeg2 : ({ st with computingCrc8 := true, crc8 := 0 } : DecodeState) = st1 := by
        injection hbeg
      subst hbeg2
      split at h
      · next sync st2 h16 =>
          by_cases hsync : sync ≠ 0x3ffe
          · rw [if_pos hsync] at h
            exact DRes.noConfusion h
          · rw [if_neg hsync] at h
            obtain ⟨hcA, kA, hkA, hsA, hcrcA⟩ := crc16Chain_readU16Bits 14 _ sync st2 h16 hc
            obtain ⟨hcB, kB, hkB, hsB, hcrcB⟩ := crc16Chain_frameHeaderRest info st2 a st' h hcA
            obtain ⟨hk, hs, hcr⟩ := chainData_trans kA kB hkA hsA hcrcA hkB hsB hcrcB
            exact ⟨hcB, kA + kB, hk, hs, hcr⟩
      · next e1 h16 =>
          by_cases hio : e1 = .ioEof
          · rw [if_pos hio] at h
            injection h with h1 h2
            subst h2
            exact ⟨hc, 0, Nat.zero_le _, rfl, rfl⟩
          · rw [if_neg hio] at h
            exact DRes.noConfusion h
      · exact DRes.noConfusion h
  · next e1 hbeg => exact DRes.noConfusion hbeg
  · next hbeg => exact DRes.noConfusion hbeg

theorem crc16Chain_decodeChannels (sampleSize blockSize : Nat) :
    ∀ (fuel i : Nat) (blocks : List (List Int)),
      Crc16Chain (decodeChannels sampleSize blockSize i fuel blocks) := by
  intro fuel
  induction fuel with
  | zero => exact fun _ blocks => crc16Chain_pure blocks
  | succ k ih =>
      intro i blocks
      simp only [decodeChannels]
      cases hb : blocks[i]? with
      | none => exact crc16Chain_fail _
      | some block =>
          exact crc16Chain_bind (crc16Chain_decodeOneSubframe sampleSize blockSize block)
            (fun _ => ih (i + 1) _)

theorem crc16Chain_decodeFrameChannels (header : FrameHeader) (blocks : List (List Int)) :
    Crc16Chain (decodeFrameChannels header blocks) := by
  unfold decodeFrameChannels
  cases header.channelAssignment with
  | independent numChannels =>
      exact crc16Chain_decodeChannels header.sampleSize header.blockSize numChannels 0 blocks
  | leftSideStereo =>
      rcases blocks with _ | ⟨leftVec, _ | ⟨sideVec, rest⟩⟩
      · exact crc16Chain_fail _
      · exact crc16Chain_fail _
      · exact crc16Chain_bind
          (crc16Chain_decodeOneSubframe header.sampleSize header.blockSize leftVec)
          (fun left => crc16Chain_bind
            (crc16Chain_decodeOneSubframe (header.sampleSize + 1) header.blockSize sideVec)
            (fun side => crc16Chain_pure _))
  | sideRightStereo =>
      rcases blocks with _ | ⟨sideVec, _ | ⟨rightVec, rest⟩⟩
      · exact crc16Chain_fail _
      · exact crc16Chain_fail _
      · exact crc16Chain_bind
          (crc16Chain_decodeOneSubframe (header.sampleSize + 1) header.blockSize sideVec)
          (fun side => crc16Chain_bind
            (crc16Chain_decodeOneSubframe header.sampleSize header.blockSize rightVec)
            (fun right => crc16Chain_pure _))
  | midSideStereo =>
      rcases blocks with _ | ⟨midVec, _ | ⟨sideVec, rest⟩⟩
      · exact crc16Chain_fail _
      · exact crc16Chain_fail _
      · exact crc16Chain_bind
          (crc16Chain_decodeOneSubframe header.sampleSize header.blockSize midVec)
          (fun mid => crc16Chain_bind
            (crc16Chain_decodeOneSubframe (header.sampleSize + 1) header.blockSize sideVec)
            (fun side => crc16Chain_pure _))

theorem readU16_ok_inv {st : DecodeState} {v : Nat} {st' : DecodeState}
    (hq0 : st.queue = 0) (hqc0 : st.queueCount = 0) (h : readU16 st = .ok v st') :
    2 ≤ st.source.length ∧ v = beVal (st.source.take 2) % 2 ^ 16 ∧
      st'.source = st.source.drop 2 := by
  obtain ⟨w, st1, hval, hrest⟩ := DecM.bind_ok h
  rw [DecM.run_pure] at hrest
  injection hrest with h3 h4
  by_cases hlen : 2 ≤ st.source.length
  · have hle : (16 - st.queueCount - 1) / 8 + 1 ≤ st.source.length := by omega
    rw [readValue_fetch (by norm_num) (by omega) hle] at hval
    injection hval with h1 h2
    refine ⟨hlen, ?_, ?_⟩
    · rw [← h3, ← h1, hq0, hqc0]
      have e1 : (16 - 0 - 1) / 8 + 1 = 2 := by norm_num
      have e2 : ((8 : Nat) - ((16 - 0) &&& 7)) &&& 7 = 0 := by decide
      rw [e1, e2, Nat.shiftRight_zero]
      have e4 : ((0 : Nat) <<< (16 - 0)) % 2 ^ 64 = 0 := by decide
      rw [e4, ite_self, Nat.zero_or]
      have e5 : (0xffff : Nat) = 2 ^ 16 - 1 := by norm_num
      rw [e5, Nat.and_pow_two_sub_one_eq_mod]
    · rw [← h4, ← h2]
      show st.source.drop ((16 - st.queueCount - 1) / 8 + 1) = st.source.drop 2
      rw [hqc0]
  · exfalso
    have hv : readValue 16 st = .err .ioEof := by
      simp only [readValue, readExact]
      rw [if_pos (by norm_num : (16 : Nat) ≤ 64), if_pos (by omega : st.queueCount < 16)]
      rw [if_neg (by omega : ¬ ((16 - st.queueCount - 1) / 8 + 1 ≤ st.source.length))]
    rw [hv] at hval
    exact DRes.noConfusion hval

/-- **C8**: `Frame::from_reader` opens the CRC-16 region on entry, so on
reaching the end of a frame body the accumulator covers exactly the `k`
frame bytes consumed so far; the decoder then byte-aligns the reader
(consuming no bytes), closes the region, and reads the declared big-endian
16-bit CRC from the next two bytes.  A successful `Ok(Some(frame))` forces
the computed CRC-16 to equal the declared value, and `FrameCrcMismatch` —
an error no callee of `Frame::from_reader` raises — forces them to
differ. -/
theorem c8_frame_crc16_check (info : StreamInfo) (blocks : List (List Int))
    (st : DecodeState) (hb : ∀ b ∈ st.source, b < 256) :
    (∀ f st', Frame.fromReader info blocks st = .ok (some f) st' →
      ∃ k, k + 2 ≤ st.source.length ∧ st'.source = st.source.drop (k + 2) ∧
        crc16Run 0 (st.source.take k) = beVal ((st.source.drop k).take 2)) ∧
    (Frame.fromReader info blocks st = .err .frameCrcMismatch →
      ∃ k, k + 2 ≤ st.source.length ∧
        crc16Run 0 (st.source.take k) ≠ beVal ((st.source.drop k).take 2)) := by
  constructor
  · intro f st' h
    obtain ⟨u0, st0, hb0, h⟩ := DecM.bind_ok h
    injection hb0 with hu0 hst0
    subst hst0
    obtain ⟨ohdr, st1, bhdr, h⟩ := DecM.bind_ok h
    cases ohdr with
    | none =>
        obtain ⟨c0, st2, hend0, h⟩ := DecM.bind_ok h
        rw [DecM.run_pure] at h
        injection h with h1 h2
        exact Option.noConfusion h1
    | some hdr =>
        obtain ⟨blocks1, st2, hch, h⟩ := DecM.bind_ok h
        obtain ⟨u3, st3, halign, h⟩ := DecM.bind_ok h
        injection halign with hu3 hst3
        subst hst3
        obtain ⟨crcv, st4, hend, h⟩ := DecM.bind_ok h
        injection hend with hv4 hs4
        subst hs4
        obtain ⟨declv, st5, hu16, h⟩ := DecM.bind_ok h
        by_cases hne : crcv ≠ declv
        · rw [if_pos hne] at h
          exact DRes.noConfusion h
        · rw [if_neg hne] at h
          rw [DecM.run_pure] at h
          injection h with h1 h2
          push_neg at hne
          obtain ⟨hcA, kA, hkA, hsA, hcrcA⟩ :=
            crc16Chain_frameHeaderFromReader info _ _ _ bhdr rfl
          obtain ⟨hcB, kB, hkB, hsB, hcrcB⟩ :=
            crc16Chain_decodeFrameChannels hdr blocks _ _ _ hch hcA
          obtain ⟨hk0, hs0, hcr0⟩ := chainData_trans kA kB hkA hsA hcrcA hkB hsB hcrcB
          have hk2 : kA + kB ≤ st.source.length := hk0
          have hs2 : st2.source = st.source.drop (kA + kB) := hs0
          have hcr2 : st2.crc16 = crc16Run 0 (st.source.take (kA + kB)) := hcr0
          obtain ⟨hlen2, hdecl, hs5⟩ := readU16_ok_inv rfl rfl hu16
          have hlen2b : 2 ≤ st2.source.length := hlen2
          have hdecl2 : declv = beVal (st2.source.take 2) % 2 ^ 16 := hdecl
          have hs5b : st5.source = st2.source.drop 2 := hs5
          have hv4b : st2.crc16 = crcv := hv4
          have hlt : beVal ((st.source.drop (kA + kB)).take 2) < 2 ^ 16 := by
            have hmem : ∀ b ∈ (st.source.drop (kA + kB)).take 2, b < 256 := fun b hbm =>
              hb b (List.mem_of_mem_drop (List.mem_of_mem_take hbm))
            have hlt1 := beVal_lt _ hmem
            have hlen3 : ((st.source.drop (kA + kB)).take 2).length ≤ 2 := by
              rw [List.length_take]
              exact Nat.min_le_left _ _
            calc beVal ((st.source.drop (kA + kB)).take 2)
                < 256 ^ ((st.source.drop (kA + kB)).take 2).length := hlt1
              _ ≤ 256 ^ 2 := Nat.pow_le_pow_right (by norm_num) hlen3
              _ ≤ 2 ^ 16 := by norm_num
          refine ⟨kA + kB, ?_, ?_, ?_⟩
          · rw [hs2, List.length_drop] at hlen2b
            omega
          · rw [← h2, hs5b, hs2, List.drop_drop]
          · have hdecl3 : declv = beVal ((st.source.drop (kA + kB)).take 2) := by
              rw [hdecl2, hs2, Nat.mod_eq_of_lt hlt]
            rw [← hcr2, hv4b, hne, hdecl3]
  · intro h
    rcases DecM.bind_err h with hb0 | ⟨u0, st0, hb0, h⟩
    · exact DRes.noConfusion hb0
    · injection hb0 with hu0 hst0
      subst hst0
      rcases DecM.bind_err h with bhdr | ⟨ohdr, st1, bhdr, h⟩
      · exact absurd bhdr (neverErr_frameHeaderFromReader (by decide) (by decide) (by decide)
          (by decide) (by decide) (by decide) info _)
      · cases ohdr with
        | none =>
            rcases DecM.bind_err h with hend0 | ⟨c0, st2, hend0, h⟩
            · exact DRes.noConfusion hend0
            · rw [DecM.run_pure] at h
              exact DRes.noConfusion h
        | some hdr =>
            rcases DecM.bind_err h with hch | ⟨blocks1, st2, hch, h⟩
            · exact absurd hch (neverErr_decodeFrameChannels (by decide) (by decide) (by decide)
                (by decide) (by decide) (by decide) (by decide) (by decide) hdr blocks _)
            · rcases DecM.bind_err h with halign | ⟨u3, st3, halign, h⟩
              · exact DRes.noConfusion halign
              · injection halign with hu3 hst3
                subst hst3
                rcases DecM.bind_err h with hend | ⟨crcv, st4, hend, h⟩
                · exact DRes.noConfusion hend
                · injection hend with hv4 hs4
                  subst hs4
                  rcases DecM.bind_err h with hu16 | ⟨declv, st5, hu16, h⟩
                  · exact absurd hu16 (neverErr_readU16 (by decide) _)
                  · by_cases hne : crcv ≠ declv
                    · obtain ⟨hcA, kA, hkA, hsA, hcrcA⟩ :=
                        crc16Chain_frameHeaderFromReader info _ _ _ bhdr rfl
                      obtain ⟨hcB, kB, hkB, hsB, hcrcB⟩ :=
                        crc16Chain_decodeFrameChannels hdr blocks _ _ _ hch hcA
                      obtain ⟨hk0, hs0, hcr0⟩ :=
                        chainData_trans kA kB hkA hsA hcrcA hkB hsB hcrcB
                      have hk2 : kA + kB ≤ st.source.length := hk0
                      have hs2 : st2.source = st.source.drop (kA + kB) := hs0
                      have hcr2 : st2.crc16 = crc16Run 0 (st.source.take (kA + kB)) := hcr0
                      obtain ⟨hlen2, hdecl, hs5⟩ := readU16_ok_inv rfl rfl hu16
                      have hlen2b : 2 ≤ st2.source.length := hlen2
                      have hdecl2 : declv = beVal (st2.source.take 2) % 2 ^ 16 := hdecl
                      have hv4b : st2.crc16 = crcv := hv4
                      have hlt : beVal ((st.source.drop (kA + kB)).take 2) < 2 ^ 16 := by
                        have hmem : ∀ b ∈ (st.source.drop (kA + kB)).take 2, b < 256 :=
                          fun b hbm =>
                            hb b (List.mem_of_mem_drop (List.mem_of_mem_take hbm))
                        have hlt1 := beVal_lt _ hmem
                        have hlen3 : ((st.source.drop (kA + kB)).take 2).length ≤ 2 := by
                          rw [List.length_take]
                          exact Nat.min_le_left _ _
                        calc beVal ((st.source.drop (kA + kB)).take 2)
                            < 256 ^ ((st.source.drop (kA + kB)).take 2).length := hlt1
                          _ ≤ 256 ^ 2 := Nat.pow_le_pow_right (by norm_num) hlen3
                          _ ≤ 2 ^ 16 := by norm_num
                      refine ⟨kA + kB, ?_, ?_⟩
                      · rw [hs2, List.length_drop] at hlen2b
                        omega
                      · have hdecl3 : declv = beVal ((st.source.drop (kA + kB)).take 2) := by
                          rw [hdecl2, hs2, Nat.mod_eq_of_lt hlt]
                        rw [← hcr2, hv4b, ← hdecl3]
                        exact hne
                    · rw [if_neg hne] at h
                      rw [DecM.run_pure] at h
                      exact DRes.noConfusion h

/-- Witness for C8: the byte-bound hypothesis discharged at a concrete
reader state (a lone `0xff` byte, a two-element channel buffer and a plain
`StreamInfo`). -/
theorem c8_frame_crc16_check_witness :
    (∀ f st', Frame.fromReader ⟨0, 0, 0, 0, 0, 1, 8, 0, 0⟩ [[], []] (initState [0xff]) =
        .ok (some f) st' →
      ∃ k, k + 2 ≤ (initState [0xff]).source.length ∧
        st'.source = (initState [0xff]).source.drop (k + 2) ∧
        crc16Run 0 ((initState [0xff]).source.take k) =
          beVal (((initState [0xff]).source.drop k).take 2)) ∧
    (Frame.fromReader ⟨0, 0, 0, 0, 0, 1, 8, 0, 0⟩ [[], []] (initState [0xff]) =
        .err .frameCrcMismatch →
      ∃ k, k + 2 ≤ (initState [0xff]).source.length ∧
        crc16Run 0 ((initState [0xff]).source.take k) ≠
          beVal (((initState [0xff]).source.drop k).take 2)) :=
  c8_frame_crc16_check ⟨0, 0, 0, 0, 0, 1, 8, 0, 0⟩ [[], []] (initState [0xff]) (by decide)

/-- **C10**: `Stream::new` never examines the declared type of the first
metadata block: no code path constructs `InvalidMetadataType` (first
conjunct, over every reader state), and a stream whose first metadata
block header declares type `Padding` (code 1, `last` set, 34 bytes) is
accepted with its all-zero body misread as the `StreamInfo` (the remaining
conjuncts: the same header bytes parse as a `Padding` header, and the full
stream open succeeds on them). -/
theorem c10_first_metadata_type_ignored :
    (∀ st, Stream.new st ≠ .err .invalidMetadataType) ∧
    MetadataHeader.fromReader
        (initState ([0x81, 0x00, 0x00, 0x22] ++ List.replicate 34 0)) =
      .ok ⟨true, .padding, 34⟩ (initState (List.replicate 34 0)) ∧
    Stream.new
        (initState ([0x66, 0x4c, 0x61, 0x43, 0x81, 0x00, 0x00, 0x22] ++
          List.replicate 34 0)) =
      .ok ⟨0, 0, 0, 0, 0, 1, 1, 0, 0⟩ (initState []) :=
  ⟨fun st => neverErr_streamNew (by decide) (by decide) st, by decide, by decide⟩

end Suono
